import Mathlib

/-!
Verification of the flat address-space mapping engine declared in
`app/src/main/cpp/skyline/common/address_space.h` (class `FlatAddressSpaceMap`
with its two specializations `FlatMemoryManager` and `FlatAllocator`).

The header in the repository declares the data model (a sorted vector of
`Block`s with an initial sentinel block, a soft `vaLimit` bounded by
`VaMaximum`, and the `PaContigSplit` merge policy flag) and the public
operations (`Map`, `Unmap`, `TranslateRange`, `Read`, `Write`, `Allocate`,
`AllocateFixed`, `Free`), but the bodies of `MapLocked`, `UnmapLocked` and the
specialization methods live in an implementation file that is not part of the
repository slice.  Those bodies are therefore modelled from the specification
(sections 3, 4.1, 4.2, 4.3): each such definition carries a
`Modelled from the spec:` doc comment naming the missing function.

Virtual addresses are embedded as `Nat` (the C++ `VaType` is an unsigned
integer and all instantiations use `UnmappedVa = 0`, so the sentinel block sits
at virtual address 0).  Physical addresses are embedded generically through
`PaOps`: the memory-manager specialization uses `Nat` pointers with `nullptr`
as 0 and `PaContigSplit = true`; the allocator uses `Bool` occupancy flags with
`false` as the unmapped value and `PaContigSplit = false`.
-/

namespace Skyline

/-- Operations on the generic physical-address type `PaType` of
`FlatAddressSpaceMap`: the `UnmappedPa` sentinel, the address arithmetic used
when a block is split (`phys` increases 1-1 with `virt` inside a block, per the
comment on `Block::phys` in the header), and the `PaContigSplit` template flag
that enables merging physically contiguous neighbours. -/
structure PaOps (PA : Type) where
  unmapped : PA
  add : PA → Nat → PA
  contigSplit : Bool
  add_zero : ∀ p, add p 0 = p
  add_assoc : ∀ p m n, add (add p m) n = add p (m + n)
  add_ne : ∀ p d, p ≠ unmapped → add p d ≠ unmapped

/-- One block of the address space, as in `FlatAddressSpaceMap::Block`:
a virtual start address, the physical backing of its start, and the
per-specialization `ExtraBlockInfo`.  A block's extent is implicit: it runs
until the next stored block's `virt`. -/
structure Block (PA : Type) (Extra : Type) where
  virt : Nat
  phys : PA
  extraInfo : Extra
deriving DecidableEq

variable {PA : Type} {Extra : Type}

/-- Rebasing a physical address when a block is cut at an offset `d` from its
start: an unmapped block stays unmapped, a mapped block's physical address
advances 1-1 with the virtual address. -/
def rebase (ops : PaOps PA) [DecidableEq PA] (p : PA) (d : Nat) : PA :=
  if p = ops.unmapped then p else ops.add p d

/-- Two adjacent blocks `a` (earlier) and `b` (later) are mergeable when they
have the same mapped/unmapped status, identical extra info, and — for mapped
blocks — the `PaContigSplit` policy is enabled and `b`'s physical start
continues `a`'s physical run contiguously.  Adjacent unmapped holes always
merge. -/
def Mergeable (ops : PaOps PA) [DecidableEq PA] [DecidableEq Extra]
    (a b : Block PA Extra) : Prop :=
  (a.phys = ops.unmapped ∧ b.phys = ops.unmapped ∧ a.extraInfo = b.extraInfo) ∨
  (a.phys ≠ ops.unmapped ∧ b.phys ≠ ops.unmapped ∧ ops.contigSplit = true ∧
    b.phys = ops.add a.phys (b.virt - a.virt) ∧ a.extraInfo = b.extraInfo)

instance {ops : PaOps PA} [DecidableEq PA] [DecidableEq Extra]
    {a b : Block PA Extra} : Decidable (Mergeable ops a b) :=
  inferInstanceAs (Decidable
    ((a.phys = ops.unmapped ∧ b.phys = ops.unmapped ∧
        a.extraInfo = b.extraInfo) ∨
      (a.phys ≠ ops.unmapped ∧ b.phys ≠ ops.unmapped ∧ ops.contigSplit = true ∧
        b.phys = ops.add a.phys (b.virt - a.virt) ∧
        a.extraInfo = b.extraInfo)))

/-- A cast-free decidability instance for `List.Chain` (the library one blocks
kernel reduction), so that concrete invariant checks evaluate by `decide`. -/
instance (priority := 1100) decChainRec {α : Type _} {R : α → α → Prop}
    [DecidableRel R] : ∀ (a : α) (l : List α), Decidable (List.Chain R a l)
  | _, [] => isTrue List.Chain.nil
  | a, b :: l =>
    haveI : Decidable (List.Chain R b l) := decChainRec b l
    decidable_of_iff' (R a b ∧ List.Chain R b l) List.chain_cons

/-- Cast-free decidability for `List.Chain'`, on top of `decChainRec`. -/
instance (priority := 1100) decChainRec' {α : Type _} {R : α → α → Prop}
    [DecidableRel R] : ∀ (l : List α), Decidable (List.Chain' R l)
  | [] => isTrue trivial
  | a :: l => inferInstanceAs (Decidable (List.Chain R a l))

/-- Appends a second run of blocks after a first one, absorbing leading blocks
of the second run into the last block of the first while they are mergeable
(the merge-on-map / merge-on-unmap step of `MapLocked` and `UnmapLocked`;
absorbing a successor block just deletes it, since extents are implicit). -/
def glue (ops : PaOps PA) [DecidableEq PA] [DecidableEq Extra]
    (xs : List (Block PA Extra)) : List (Block PA Extra) → List (Block PA Extra)
  | [] => xs
  | y :: ys =>
    match xs.getLast? with
    | none => y :: ys
    | some a => if Mergeable ops a y then glue ops xs ys else xs ++ y :: ys

/-- The stored block covering address `a`: the last block whose `virt` is at
most `a` (ordered search on the sorted vector).  On the lists maintained by the
operations the first block sits at `virt = 0`, so every address is covered. -/
def coverBlock : List (Block PA Extra) → Nat → Option (Block PA Extra)
  | [], _ => none
  | [b], _ => some b
  | b :: b2 :: rest, a => if a < b2.virt then some b else coverBlock (b2 :: rest) a

/-- The payload stored for a single address: the (rebased) physical backing and
the extra info of the covering block. -/
def payloadAt (ops : PaOps PA) [DecidableEq PA] [Inhabited Extra]
    (bs : List (Block PA Extra)) (a : Nat) : PA × Extra :=
  match coverBlock bs a with
  | some c => (rebase ops c.phys (a - c.virt), c.extraInfo)
  | none => (ops.unmapped, default)

/-- The blocks strictly before the edited range (kept unchanged). -/
def leftBlocks (bs : List (Block PA Extra)) (v : Nat) : List (Block PA Extra) :=
  bs.filter fun b => b.virt < v

/-- The right remainder of the block straddling the end of the edited range:
a fragment starting at `e` whose physical backing is rebased 1-1 with the cut
(this is also exactly the old block when one starts at `e` itself). -/
def tailBlocks (ops : PaOps PA) [DecidableEq PA] (bs : List (Block PA Extra))
    (e : Nat) : List (Block PA Extra) :=
  match coverBlock bs e with
  | some c => [Block.mk e (rebase ops c.phys (e - c.virt)) c.extraInfo]
  | none => []

/-- The blocks strictly after the edited range (kept unchanged). -/
def rightBlocks (bs : List (Block PA Extra)) (e : Nat) : List (Block PA Extra) :=
  bs.filter fun b => e < b.virt

/-- Modelled from the spec: the shared structural core of
`FlatAddressSpaceMap::MapLocked` and `UnmapLocked`, whose bodies are not in the
repository slice.  Overwrites the range `[v, e)` with a payload that starts at
physical `p` and carries extra info `x`: existing blocks fully covered are
removed, a block straddling either edge is split (the right remainder keeps a
physical address rebased 1-1 with the cut), and the result is re-merged with
both neighbours.  An empty range is a no-op. -/
def setRange (ops : PaOps PA) [DecidableEq PA] [DecidableEq Extra]
    (bs : List (Block PA Extra)) (v e : Nat) (p : PA) (x : Extra) :
    List (Block PA Extra) :=
  if e ≤ v then bs
  else
    glue ops (glue ops (glue ops (leftBlocks bs v) [Block.mk v p x])
      (tailBlocks ops bs e)) (rightBlocks bs e)

/-- The state of one `FlatAddressSpaceMap` instance: the sorted block vector
(initialized with a single sentinel block `Block{}`) and the soft VA limit. -/
structure FlatAddressSpaceMap (PA : Type) (Extra : Type) where
  blocks : List (Block PA Extra)
  vaLimit : Nat

/-- `FlatAddressSpaceMap::VaMaximum` for a given `AddressSpaceBits`:
`(1 << (bits-1)) + ((1 << (bits-1)) - 1)`, the maximum representable VA. -/
def VaMaximum (AddressSpaceBits : Nat) : Nat :=
  2 ^ (AddressSpaceBits - 1) + (2 ^ (AddressSpaceBits - 1) - 1)

/-- A fresh map: `blocks{Block{}}` — one sentinel block at `UnmappedVa = 0`
with the unmapped physical value and default extra info. -/
def initMap (ops : PaOps PA) [Inhabited Extra] (vaLimit : Nat) :
    FlatAddressSpaceMap PA Extra :=
  ⟨[⟨0, ops.unmapped, default⟩], vaLimit⟩

/-- Modelled from the spec: `FlatAddressSpaceMap::Map` (the public wrapper over
the missing `MapLocked`).  A request whose end would exceed the instance's VA
limit fails fast with no structural change (the Bool result is `false`);
otherwise the range is overwritten with the new mapping. -/
def Map (ops : PaOps PA) [DecidableEq PA] [DecidableEq Extra]
    (st : FlatAddressSpaceMap PA Extra) (virt : Nat) (phys : PA) (size : Nat)
    (extra : Extra) : FlatAddressSpaceMap PA Extra × Bool :=
  if st.vaLimit < virt + size then (st, false)
  else ({ st with blocks := setRange ops st.blocks virt (virt + size) phys extra }, true)

/-- Modelled from the spec: `FlatAddressSpaceMap::Unmap` (the public wrapper
over the missing `UnmapLocked`).  Overwrites the range with the unmapped
sentinel payload and re-merges adjacent holes. -/
def Unmap (ops : PaOps PA) [DecidableEq PA] [DecidableEq Extra] [Inhabited Extra]
    (st : FlatAddressSpaceMap PA Extra) (virt size : Nat) :
    FlatAddressSpaceMap PA Extra :=
  { st with blocks := setRange ops st.blocks virt (virt + size) ops.unmapped default }

/-! ### Invariant of the block sequence -/

/-- The block sequence is strictly ascending by virtual start address. -/
def Ascending (bs : List (Block PA Extra)) : Prop :=
  List.Pairwise (fun a b => a.virt < b.virt) bs

/-- No two adjacent stored blocks are mergeable (no spurious fragmentation). -/
def NoMerge (ops : PaOps PA) [DecidableEq PA] [DecidableEq Extra]
    (bs : List (Block PA Extra)) : Prop :=
  List.Chain' (fun a b => ¬ Mergeable ops a b) bs

/-- The structural invariant of a `FlatAddressSpaceMap` block vector: strictly
sorted, no adjacent mergeable pair, and the first slot always exists and sits
at virtual address 0 (the sentinel guarantees the sequence is never empty). -/
def InvariantB (ops : PaOps PA) [DecidableEq PA] [DecidableEq Extra]
    (bs : List (Block PA Extra)) : Prop :=
  Ascending bs ∧ NoMerge ops bs ∧ (bs.map Block.virt).head? = some 0

instance {bs : List (Block PA Extra)} : Decidable (Ascending bs) :=
  inferInstanceAs (Decidable
    (List.Pairwise (fun a b : Block PA Extra => a.virt < b.virt) bs))

instance {ops : PaOps PA} [DecidableEq PA] [DecidableEq Extra]
    {bs : List (Block PA Extra)} : Decidable (NoMerge ops bs) :=
  inferInstanceAs (Decidable
    (List.Chain' (fun a b : Block PA Extra => ¬ Mergeable ops a b) bs))

instance {ops : PaOps PA} [DecidableEq PA] [DecidableEq Extra]
    {bs : List (Block PA Extra)} : Decidable (InvariantB ops bs) :=
  inferInstanceAs (Decidable
    (Ascending bs ∧ NoMerge ops bs ∧ (bs.map Block.virt).head? = some 0))

/-! ### The memory-manager specialization (`FlatMemoryManager`) -/

/-- `MemoryManagerBlockInfo` from the header: the per-block sparse flag. -/
structure MemoryManagerBlockInfo where
  sparseMapped : Bool
deriving DecidableEq

instance : Inhabited MemoryManagerBlockInfo := ⟨⟨false⟩⟩

/-- The physical-address operations of `FlatMemoryManager`: `u8 *` pointers
embedded as `Nat` with `nullptr = 0` as `UnmappedPa`, and `PaContigSplit`
enabled. -/
def memOps : PaOps Nat where
  unmapped := 0
  add := fun p d => p + d
  contigSplit := true
  add_zero := fun _ => rfl
  add_assoc := fun p m n => Nat.add_assoc p m n
  add_ne := by
    intro p d hp h
    have h2 : p + d = 0 := h
    have h3 : p ≠ 0 := hp
    omega

/-- `FlatMemoryManager::SparsePlaceholderAddress`: `0xCAFEBABE`. -/
def SparsePlaceholderAddress : Nat := 0xCAFEBABE

/-- `FlatMemoryManager::SparseMapSize`: the 16 GiB sparse pool size. -/
def SparseMapSize : Nat := 0x400000000

/-- The state of a `FlatMemoryManager` instance. -/
abbrev FlatMemoryManager := FlatAddressSpaceMap Nat MemoryManagerBlockInfo

/-- The default (non-sparse) extra info of a memory-manager block. -/
def noSparse : MemoryManagerBlockInfo := ⟨false⟩

/-- The extra info marking a block as sparse-mapped. -/
def isSparse : MemoryManagerBlockInfo := ⟨true⟩

/-- A fresh `FlatMemoryManager` instance. -/
def FlatMemoryManager.init (vaLimit : Nat) : FlatMemoryManager :=
  initMap memOps vaLimit

/-- The target of one physical span returned by `TranslateRange`: either real
backing memory at a physical address, or the shared zero-filled sparse
placeholder buffer. -/
inductive SpanTarget
  | mem (pa : Nat)
  | sparse
deriving DecidableEq

/-- One physical span (`span<u8>`): a target and a byte size. -/
structure Span where
  target : SpanTarget
  size : Nat
deriving DecidableEq

/-- The span emitted for the part `[lo, hi)` of the query that overlaps one
block: a sparse-mapped block yields a span into the placeholder buffer, a
normal block yields its physical backing rebased to the overlap start. -/
def mkSpan (b : Block Nat MemoryManagerBlockInfo) (lo hi : Nat) : Span :=
  if b.extraInfo.sparseMapped then ⟨SpanTarget.sparse, hi - lo⟩
  else ⟨SpanTarget.mem (b.phys + (lo - b.virt)), hi - lo⟩

/-- Modelled from the spec: the walk inside `FlatMemoryManager::TranslateRange`
(body not in the repository slice).  Emits, in virtual-address order, one span
per block overlapping the query `[v, e)`, each sized to the overlap; the last
stored block conceptually extends to the end of the query. -/
def translateBlocks : List (Block Nat MemoryManagerBlockInfo) → Nat → Nat → List Span
  | [], _, _ => []
  | [b], v, e =>
    let lo := max v b.virt
    if lo < e then [mkSpan b lo e] else []
  | b :: b2 :: rest, v, e =>
    let lo := max v b.virt
    let hi := min e b2.virt
    (if lo < hi then [mkSpan b lo hi] else []) ++ translateBlocks (b2 :: rest) v e

/-- `FlatMemoryManager::TranslateRange`: all physical spans inside the given
virtual range. -/
def TranslateRange (st : FlatMemoryManager) (virt size : Nat) : List Span :=
  translateBlocks st.blocks virt (virt + size)

/-- Reading one span from physical memory (`mem` maps physical addresses to
bytes): a sparse span reads from the zero-initialized placeholder. -/
def readSpan (mem : Nat → Nat) (sp : Span) : List Nat :=
  match sp.target with
  | SpanTarget.sparse => List.replicate sp.size 0
  | SpanTarget.mem pa => (List.range sp.size).map fun i => mem (pa + i)

/-- Modelled from the spec: `FlatMemoryManager::Read` (body not in the
repository slice) — translate, then copy span by span. -/
def Read (mem : Nat → Nat) (st : FlatMemoryManager) (virt size : Nat) : List Nat :=
  ((TranslateRange st virt size).map (readSpan mem)).flatten

/-- Writing bytes to one span: a write into the sparse placeholder is
discarded, a write to real memory updates it byte by byte. -/
def writeSpan (mem : Nat → Nat) (sp : Span) (bytes : List Nat) : Nat → Nat :=
  match sp.target with
  | SpanTarget.sparse => mem
  | SpanTarget.mem pa =>
    fun a => if pa ≤ a ∧ a < pa + sp.size then bytes.getD (a - pa) (mem a) else mem a

/-- Copying a byte list across a span list, consuming the bytes span by span. -/
def writeSpans : (Nat → Nat) → List Span → List Nat → (Nat → Nat)
  | mem, [], _ => mem
  | mem, sp :: sps, bytes =>
    writeSpans (writeSpan mem sp (bytes.take sp.size)) sps (bytes.drop sp.size)

/-- Modelled from the spec: `FlatMemoryManager::Write` (body not in the
repository slice) — translate, then copy span by span. -/
def Write (mem : Nat → Nat) (st : FlatMemoryManager) (virt : Nat)
    (bytes : List Nat) : Nat → Nat :=
  writeSpans mem (TranslateRange st virt bytes.length) bytes

/-! ### The allocator specialization (`FlatAllocator`) -/

/-- The physical-address operations of `FlatAllocator`: `bool` occupancy with
`UnmappedPa = false` and `PaContigSplit` disabled (the physical field is a
flag, not an address, so splitting does not offset it and mapped blocks are
never merged by contiguity). -/
def boolOps : PaOps Bool where
  unmapped := false
  add := fun p _ => p
  contigSplit := false
  add_zero := fun _ => rfl
  add_assoc := fun _ _ _ => rfl
  add_ne := fun _ _ hp => hp

/-- The state of a `FlatAllocator` instance: the inherited block vector and VA
limit, the allocator base `vaStart`, and the linear allocation cursor
`currentLinearAllocEnd`. -/
structure FlatAllocator where
  blocks : List (Block Bool Unit)
  vaLimit : Nat
  vaStart : Nat
  currentLinearAllocEnd : Nat

/-- A fresh allocator: sentinel block vector, cursor at the base. -/
def FlatAllocator.init (vaStart vaLimit : Nat) : FlatAllocator :=
  ⟨[⟨0, false, ()⟩], vaLimit, vaStart, vaStart⟩

/-- Modelled from the spec: the search phase of `FlatAllocator::Allocate`
(body not in the repository slice) — scan the block sequence for the first
maximal unmapped gap at or above the allocator base whose length is at least
`size` (the gap is clipped below by `vaStart` and the allocation must stay
within `vaLimit`), returning its start. -/
def firstFit : List (Block Bool Unit) → Nat → Nat → Nat → Option Nat
  | [], _, _, _ => none
  | [b], vaStart, vaLimit, size =>
    if b.phys then none
    else
      let s := max b.virt vaStart
      if s + size ≤ vaLimit then some s else none
  | b :: b2 :: rest, vaStart, vaLimit, size =>
    if b.phys then firstFit (b2 :: rest) vaStart vaLimit size
    else
      let s := max b.virt vaStart
      if s + size ≤ b2.virt ∧ s + size ≤ vaLimit then some s
      else firstFit (b2 :: rest) vaStart vaLimit size

/-- Modelled from the spec: `FlatAllocator::Allocate` (body not in the
repository slice).  Linear phase: while the advancing cursor plus `size` stays
within the VA limit, return the cursor and bump it.  Otherwise fall back to
the first-fit search phase.  Both phases mark the returned region as occupied;
finding no gap surfaces an explicit no-space result (`none`) with no state
change. -/
def Allocate (a : FlatAllocator) (size : Nat) : FlatAllocator × Option Nat :=
  if a.currentLinearAllocEnd + size ≤ a.vaLimit then
    ({ a with
        currentLinearAllocEnd := a.currentLinearAllocEnd + size,
        blocks := setRange boolOps a.blocks a.currentLinearAllocEnd
          (a.currentLinearAllocEnd + size) true () },
      some a.currentLinearAllocEnd)
  else
    match firstFit a.blocks a.vaStart a.vaLimit size with
    | some r => ({ a with blocks := setRange boolOps a.blocks r (r + size) true () }, some r)
    | none => (a, none)

/-- Modelled from the spec: `FlatAllocator::AllocateFixed` (body not in the
repository slice) — force-mark a caller-chosen range as occupied, mirroring
`Map`'s overlap-trim behaviour and its VA-limit check. -/
def AllocateFixed (a : FlatAllocator) (virt size : Nat) : FlatAllocator × Bool :=
  if a.vaLimit < virt + size then (a, false)
  else ({ a with blocks := setRange boolOps a.blocks virt (virt + size) true () }, true)

/-- Modelled from the spec: `FlatAllocator::Free` (body not in the repository
slice) — release the range back to the unmapped pool via the unmap path; the
linear cursor is not touched. -/
def Free (a : FlatAllocator) (virt size : Nat) : FlatAllocator :=
  { a with blocks := setRange boolOps a.blocks virt (virt + size) false () }

/-- The occupancy flag stored for one address of a `FlatAllocator` (the
physical payload of the covering block). -/
def occupiedAt (bs : List (Block Bool Unit)) (a : Nat) : Bool :=
  match coverBlock bs a with
  | some c => c.phys
  | none => false

/-- A region `[r, r + size)` fits in the allocator when it stays within the VA
limit and every address in it is currently unoccupied. -/
def fitsAt (bs : List (Block Bool Unit)) (vaLimit size r : Nat) : Prop :=
  r + size ≤ vaLimit ∧ ∀ i < size, occupiedAt bs (r + i) = false

instance {bs : List (Block Bool Unit)} {vaLimit size r : Nat} :
    Decidable (fitsAt bs vaLimit size r) :=
  inferInstanceAs (Decidable
    (r + size ≤ vaLimit ∧ ∀ i < size, occupiedAt bs (r + i) = false))

/-- Running `n` successive `Allocate size` calls, collecting the results. -/
def allocRun (a : FlatAllocator) (size : Nat) : Nat → FlatAllocator × List (Option Nat)
  | 0 => (a, [])
  | n + 1 =>
    let s1 := Allocate a size
    let s2 := allocRun s1.1 size n
    (s2.1, s1.2 :: s2.2)

/-- The physical addresses a span stands for, byte by byte (`none` for bytes
backed by the sparse placeholder). -/
def spanBytes (sp : Span) : List (Option Nat) :=
  match sp.target with
  | SpanTarget.mem pa => (List.range sp.size).map fun i => some (pa + i)
  | SpanTarget.sparse => List.replicate sp.size none

/-- Reassembling a span sequence into the flat list of physical addresses it
covers, in virtual-address order. -/
def physList (spans : List Span) : List (Option Nat) :=
  (spans.map spanBytes).flatten

/-! ### Operation sequences, for the global invariant -/

/-- One public structural call on a `FlatMemoryManager` instance. -/
inductive MemOp
  | map (virt phys size : Nat) (extra : MemoryManagerBlockInfo)
  | unmap (virt size : Nat)

/-- Applying one `MemOp`. -/
def applyMemOp (st : FlatMemoryManager) : MemOp → FlatMemoryManager
  | MemOp.map v p s x => (Map memOps st v p s x).1
  | MemOp.unmap v s => Unmap memOps st v s

/-- Applying a call sequence to a `FlatMemoryManager`. -/
def applyMemOps (l : List MemOp) (st : FlatMemoryManager) : FlatMemoryManager :=
  l.foldl applyMemOp st

/-- One public structural call on a `FlatAllocator` instance. -/
inductive AllocOp
  | map (virt : Nat) (phys : Bool) (size : Nat)
  | unmap (virt size : Nat)
  | allocate (size : Nat)
  | allocateFixed (virt size : Nat)
  | free (virt size : Nat)

/-- Applying one `AllocOp`. -/
def applyAllocOp (a : FlatAllocator) : AllocOp → FlatAllocator
  | AllocOp.map v p s =>
    if a.vaLimit < v + s then a
    else { a with blocks := setRange boolOps a.blocks v (v + s) p () }
  | AllocOp.unmap v s => { a with blocks := setRange boolOps a.blocks v (v + s) false () }
  | AllocOp.allocate s => (Allocate a s).1
  | AllocOp.allocateFixed v s => (AllocateFixed a v s).1
  | AllocOp.free v s => Free a v s

/-- Applying a call sequence to a `FlatAllocator`. -/
def applyAllocOps (l : List AllocOp) (a : FlatAllocator) : FlatAllocator :=
  l.foldl applyAllocOp a

/-! ### The unmap-callback protocol -/

/-- Observable events of one public `Unmap` call, in order: lock acquisition,
the structural mutation, lock release, callback invocation. -/
inductive UnmapEvent
  | acquire
  | mutate
  | release
  | callback (virt size : Nat)
deriving DecidableEq

/-- Modelled from the spec: the event protocol of `FlatAddressSpaceMap::Unmap`
for an instance constructed with an unmap callback (the body of `UnmapLocked`
and the callback invocation site are not in the repository slice).  Per the
spec, the callback is invoked synchronously with the exact requested
`(virt, size)`, after the structural mutation, and only after the instance
lock has been dropped. -/
def UnmapTraced (ops : PaOps PA) [DecidableEq PA] [DecidableEq Extra] [Inhabited Extra]
    (st : FlatAddressSpaceMap PA Extra) (virt size : Nat) :
    FlatAddressSpaceMap PA Extra × List UnmapEvent :=
  (Unmap ops st virt size,
    [UnmapEvent.acquire, UnmapEvent.mutate, UnmapEvent.release,
      UnmapEvent.callback virt size])

/-! ## Structural lemmas -/

theorem rebase_zero (ops : PaOps PA) [DecidableEq PA] (p : PA) :
    rebase ops p 0 = p := by
  unfold rebase
  split
  · rfl
  · exact ops.add_zero p

theorem rebase_rebase (ops : PaOps PA) [DecidableEq PA] (p : PA) (m n : Nat) :
    rebase ops (rebase ops p m) n = rebase ops p (m + n) := by
  unfold rebase
  by_cases h : p = ops.unmapped
  · simp [h]
  · rw [if_neg h, if_neg (ops.add_ne p m h), if_neg h, ops.add_assoc]

/-- A mergeable successor is exactly the fragment reconstructed from the
predecessor at the successor's start. -/
theorem mergeable_reconstruct {ops : PaOps PA} [DecidableEq PA] [DecidableEq Extra]
    {a t : Block PA Extra} (h : Mergeable ops a t) :
    Block.mk t.virt (rebase ops a.phys (t.virt - a.virt)) a.extraInfo = t := by
  rcases h with ⟨ha, ht, hx⟩ | ⟨ha, _, _, ht, hx⟩
  · cases t
    simp_all [rebase]
  · cases t
    simp_all [rebase]

/-- Reading any address at or past a mergeable successor through the
predecessor gives the same payload as reading it through the successor. -/
theorem mergeable_payload {ops : PaOps PA} [DecidableEq PA] [DecidableEq Extra]
    {a y : Block PA Extra} (h : Mergeable ops a y) (hva : a.virt ≤ y.virt)
    {addr : Nat} (haddr : y.virt ≤ addr) :
    (rebase ops a.phys (addr - a.virt), a.extraInfo) =
      (rebase ops y.phys (addr - y.virt), y.extraInfo) := by
  rcases h with ⟨ha, hy, hx⟩ | ⟨ha, hy, _, hphys, hx⟩
  · simp [rebase, ha, hy, hx]
  · have harith : (y.virt - a.virt) + (addr - y.virt) = addr - a.virt := by omega
    rw [rebase, rebase, if_neg ha, if_neg hy, hphys, ops.add_assoc, harith, hx]

/-- The defining shape of `glue`: the second run loses a prefix of blocks, each
absorbed because it was mergeable with the last block of the first run, and the
first surviving block (if any) is not mergeable with that last block. -/
theorem glue_spec (ops : PaOps PA) [DecidableEq PA] [DecidableEq Extra]
    (xs : List (Block PA Extra)) :
    ∀ ys, ∃ k, k ≤ ys.length ∧ glue ops xs ys = xs ++ ys.drop k ∧
      (∀ y ∈ ys.take k, ∃ a, xs.getLast? = some a ∧ Mergeable ops a y) ∧
      (∀ a b, xs.getLast? = some a → (ys.drop k).head? = some b →
        ¬ Mergeable ops a b)
  | [] => by
    refine ⟨0, by simp, by simp [glue], by simp, ?_⟩
    intro a b _ hb
    simp at hb
  | y :: ys => by
    rw [glue]
    cases hlast : xs.getLast? with
    | none =>
      have hxs : xs = [] := List.getLast?_eq_none_iff.mp hlast
      refine ⟨0, by simp, by simp [hxs], by simp, ?_⟩
      intro a b ha
      simp at ha
    | some a =>
      by_cases hm : Mergeable ops a y
      · obtain ⟨k, hk, heq, htake, hdrop⟩ := glue_spec ops xs ys
        refine ⟨k + 1, by simpa using hk, ?_, ?_, ?_⟩
        · simp [hm, heq]
        · intro z hz
          rw [List.take_succ_cons] at hz
          rcases List.mem_cons.mp hz with hz | hz
          · exact ⟨a, rfl, by rw [hz]; exact hm⟩
          · obtain ⟨a2, ha2, hm2⟩ := htake z hz
            rw [hlast] at ha2
            exact ⟨a2, ha2, hm2⟩
        · intro a1 b ha1 hb
          have ha1e : a1 = a := by simpa using ha1.symm
          subst ha1e
          exact hdrop a1 b hlast (by simpa using hb)
      · refine ⟨0, by simp, by simp [hm], by simp, ?_⟩
        intro a2 b ha2 hb
        have ha2e : a2 = a := by simpa using ha2.symm
        have hbe : b = y := by simpa using hb.symm
        subst ha2e
        subst hbe
        exact hm

/-- `Chain'` survives dropping a prefix. -/
theorem chain'_drop {α : Type} {R : α → α → Prop} {l : List α} (h : l.Chain' R)
    (n : Nat) : (l.drop n).Chain' R := by
  induction n with
  | zero => simpa using h
  | succ k ih =>
    have hd : l.drop (k + 1) = (l.drop k).tail := by rw [List.tail_drop]
    rw [hd]
    exact List.Chain'.tail ih

theorem glue_chain {ops : PaOps PA} [DecidableEq PA] [DecidableEq Extra]
    {xs ys : List (Block PA Extra)}
    (hxs : xs.Chain' fun a b => ¬ Mergeable ops a b)
    (hys : ys.Chain' fun a b => ¬ Mergeable ops a b) :
    (glue ops xs ys).Chain' fun a b => ¬ Mergeable ops a b := by
  obtain ⟨k, _, heq, _, hdrop⟩ := glue_spec ops xs ys
  rw [heq, List.chain'_append]
  refine ⟨hxs, chain'_drop hys k, ?_⟩
  intro a ha b hb
  exact hdrop a b ha hb

theorem glue_pairwise {ops : PaOps PA} [DecidableEq PA] [DecidableEq Extra]
    {xs ys : List (Block PA Extra)}
    (hxs : xs.Pairwise fun a b => a.virt < b.virt)
    (hys : ys.Pairwise fun a b => a.virt < b.virt)
    (hcross : ∀ x ∈ xs, ∀ y ∈ ys, x.virt < y.virt) :
    (glue ops xs ys).Pairwise fun a b => a.virt < b.virt := by
  obtain ⟨k, _, heq, _, _⟩ := glue_spec ops xs ys
  rw [heq, List.pairwise_append]
  refine ⟨hxs, hys.sublist (List.drop_sublist k ys), ?_⟩
  intro x hx y hy
  exact hcross x hx y ((List.drop_sublist k ys).subset hy)

theorem glue_mem {ops : PaOps PA} [DecidableEq PA] [DecidableEq Extra]
    {xs ys : List (Block PA Extra)} {z : Block PA Extra}
    (hz : z ∈ glue ops xs ys) : z ∈ xs ∨ z ∈ ys := by
  obtain ⟨k, _, heq, _, _⟩ := glue_spec ops xs ys
  rw [heq, List.mem_append] at hz
  rcases hz with hz | hz
  · exact Or.inl hz
  · exact Or.inr ((List.drop_sublist k ys).subset hz)

theorem glue_head {ops : PaOps PA} [DecidableEq PA] [DecidableEq Extra]
    {xs : List (Block PA Extra)} (ys : List (Block PA Extra)) (hxs : xs ≠ []) :
    (glue ops xs ys).head? = xs.head? := by
  obtain ⟨k, _, heq, _, _⟩ := glue_spec ops xs ys
  rw [heq]
  exact List.head?_append_of_ne_nil _ hxs

theorem glue_ne_nil {ops : PaOps PA} [DecidableEq PA] [DecidableEq Extra]
    {xs : List (Block PA Extra)} (ys : List (Block PA Extra)) (hxs : xs ≠ []) :
    glue ops xs ys ≠ [] := by
  obtain ⟨k, _, heq, _, _⟩ := glue_spec ops xs ys
  rw [heq]
  simp [hxs]

/-! ## Lemmas on `coverBlock` -/

theorem cover_append_ys_high {a : Nat} :
    ∀ (xs ys : List (Block PA Extra)), (∀ z ∈ ys, a < z.virt) → xs ≠ [] →
      coverBlock (xs ++ ys) a = coverBlock xs a
  | [], _, _, hx => (hx rfl).elim
  | [b], [], _, _ => by simp
  | [b], y :: ys, h, _ => by
    simp only [List.singleton_append, coverBlock]
    rw [if_pos (h y (by simp))]
  | b :: b2 :: xs, ys, h, _ => by
    have ih := cover_append_ys_high (b2 :: xs) ys h (by simp)
    simp only [List.cons_append, coverBlock] at ih ⊢
    by_cases hb2 : a < b2.virt
    · rw [if_pos hb2, if_pos hb2]
    · rw [if_neg hb2, if_neg hb2]
      exact ih

theorem cover_append_right {a : Nat} {y : Block PA Extra} (hy : y.virt ≤ a) :
    ∀ (xs : List (Block PA Extra)) (ys : List (Block PA Extra)),
      (∀ x ∈ xs, x.virt ≤ a) → coverBlock (xs ++ y :: ys) a = coverBlock (y :: ys) a
  | [], _, _ => rfl
  | [b], ys, _ => by
    simp only [List.singleton_append, coverBlock]
    rw [if_neg (by omega)]
  | b :: b2 :: xs, ys, hxs => by
    have ih := cover_append_right hy (b2 :: xs) ys fun x hx => hxs x (by simp [hx])
    simp only [List.cons_append, coverBlock] at ih ⊢
    rw [if_neg (by have := hxs b2 (by simp); omega)]
    exact ih

theorem cover_all_le {a : Nat} :
    ∀ xs : List (Block PA Extra), (∀ x ∈ xs, x.virt ≤ a) → xs ≠ [] →
      coverBlock xs a = xs.getLast?
  | [], _, hx => (hx rfl).elim
  | [b], _, _ => rfl
  | b :: b2 :: xs, hxs, _ => by
    have ih := cover_all_le (b2 :: xs) (fun x hx => hxs x (by simp [hx])) (by simp)
    simp only [coverBlock]
    rw [if_neg (by have := hxs b2 (by simp); omega)]
    rw [ih]
    simp

/-- A sorted block list splits as the blocks before `v` followed by the blocks
at or after `v`. -/
theorem sorted_decomp_left (v : Nat) :
    ∀ {bs : List (Block PA Extra)}, (bs.Pairwise fun a b => a.virt < b.virt) →
      bs = leftBlocks bs v ++ (bs.filter fun b => v ≤ b.virt)
  | [], _ => rfl
  | b :: rest, hs => by
    have hrest := (List.pairwise_cons.mp hs).2
    have hhead := (List.pairwise_cons.mp hs).1
    rw [leftBlocks] at *
    by_cases hb : b.virt < v
    · rw [List.filter_cons, if_pos (by simpa using hb), List.filter_cons,
        if_neg (by simp; omega), List.cons_append]
      exact congrArg (b :: ·) (sorted_decomp_left v hrest)
    · rw [List.filter_cons, if_neg (by simpa using hb), List.filter_cons,
        if_pos (by simp; omega)]
      have h1 : (rest.filter fun y => y.virt < v) = [] :=
        List.filter_eq_nil_iff.mpr (by intro y hy; have := hhead y hy; simp; omega)
      have h2 : (rest.filter fun y => v ≤ y.virt) = rest :=
        List.filter_eq_self.mpr (by intro y hy; have := hhead y hy; simp; omega)
      rw [h1, h2]
      rfl

/-- A sorted block list splits as the blocks at or before `e` followed by the
blocks after `e`. -/
theorem sorted_decomp_right (e : Nat) :
    ∀ {bs : List (Block PA Extra)}, (bs.Pairwise fun a b => a.virt < b.virt) →
      bs = (bs.filter fun b => b.virt ≤ e) ++ rightBlocks bs e
  | [], _ => rfl
  | b :: rest, hs => by
    have hrest := (List.pairwise_cons.mp hs).2
    have hhead := (List.pairwise_cons.mp hs).1
    rw [rightBlocks] at *
    by_cases hb : b.virt ≤ e
    · rw [List.filter_cons, if_pos (by simpa using hb), List.filter_cons,
        if_neg (by simp; omega), List.cons_append]
      exact congrArg (b :: ·) (sorted_decomp_right e hrest)
    · rw [List.filter_cons, if_neg (by simpa using hb), List.filter_cons,
        if_pos (by simp; omega)]
      have h1 : (rest.filter fun y => y.virt ≤ e) = [] :=
        List.filter_eq_nil_iff.mpr (by intro y hy; have := hhead y hy; simp; omega)
      have h2 : (rest.filter fun y => e < y.virt) = rest :=
        List.filter_eq_self.mpr (by intro y hy; have := hhead y hy; simp; omega)
      rw [h1, h2]
      rfl

/-- `coverBlock` always finds a block on a nonempty list. -/
theorem cover_isSome :
    ∀ (bs : List (Block PA Extra)) (a : Nat), bs ≠ [] → ∃ c, coverBlock bs a = some c
  | [], _, hx => (hx rfl).elim
  | [b], _, _ => ⟨b, rfl⟩
  | b :: b2 :: rest, a, _ => by
    by_cases hb2 : a < b2.virt
    · exact ⟨b, by rw [coverBlock, if_pos hb2]⟩
    · obtain ⟨c, hcov⟩ := cover_isSome (b2 :: rest) a (by simp)
      exact ⟨c, by rw [coverBlock, if_neg hb2]; exact hcov⟩

theorem glue_nil_left {ops : PaOps PA} [DecidableEq PA] [DecidableEq Extra]
    (ys : List (Block PA Extra)) : glue ops [] ys = ys := by
  cases ys <;> rfl

theorem glue_append_of_not_mergeable {ops : PaOps PA} [DecidableEq PA]
    [DecidableEq Extra] (xs ys : List (Block PA Extra))
    (h : ∀ a b, xs.getLast? = some a → ys.head? = some b → ¬ Mergeable ops a b) :
    glue ops xs ys = xs ++ ys := by
  cases ys with
  | nil => simp [glue]
  | cons y ys2 =>
    rw [glue]
    cases hl : xs.getLast? with
    | none => rw [List.getLast?_eq_none_iff.mp hl]; rfl
    | some a =>
      show (if Mergeable ops a y then glue ops xs ys2 else xs ++ y :: ys2) = xs ++ y :: ys2
      rw [if_neg (h a y hl rfl)]

theorem leftBlocks_append (xs ys : List (Block PA Extra)) (v : Nat) :
    leftBlocks (xs ++ ys) v = leftBlocks xs v ++ leftBlocks ys v :=
  List.filter_append _ _

theorem leftBlocks_eq_self (xs : List (Block PA Extra)) {v : Nat}
    (h : ∀ z ∈ xs, z.virt < v) : leftBlocks xs v = xs :=
  List.filter_eq_self.mpr (by intro z hz; simpa using h z hz)

theorem leftBlocks_eq_nil (xs : List (Block PA Extra)) {v : Nat}
    (h : ∀ z ∈ xs, ¬ z.virt < v) : leftBlocks xs v = [] :=
  List.filter_eq_nil_iff.mpr (by intro z hz; simpa using h z hz)

theorem rightBlocks_append (xs ys : List (Block PA Extra)) (e : Nat) :
    rightBlocks (xs ++ ys) e = rightBlocks xs e ++ rightBlocks ys e :=
  List.filter_append _ _

theorem rightBlocks_eq_self (xs : List (Block PA Extra)) {e : Nat}
    (h : ∀ z ∈ xs, e < z.virt) : rightBlocks xs e = xs :=
  List.filter_eq_self.mpr (by intro z hz; simpa using h z hz)

theorem rightBlocks_eq_nil (xs : List (Block PA Extra)) {e : Nat}
    (h : ∀ z ∈ xs, ¬ e < z.virt) : rightBlocks xs e = [] :=
  List.filter_eq_nil_iff.mpr (by intro z hz; simpa using h z hz)

/-- The structural core preserves the block-sequence invariant: sortedness, the
absence of adjacent mergeable blocks, and the sentinel-backed first slot at
virtual address 0. -/
theorem setRange_invariant {ops : PaOps PA} [DecidableEq PA] [DecidableEq Extra]
    {bs : List (Block PA Extra)} (v e : Nat) (p : PA) (x : Extra)
    (hInv : InvariantB ops bs) : InvariantB ops (setRange ops bs v e p x) := by
  obtain ⟨hs0, hc0, hh⟩ := hInv
  have hs : bs.Pairwise fun a b => a.virt < b.virt := hs0
  have hc : bs.Chain' fun a b => ¬ Mergeable ops a b := hc0
  by_cases hve : e ≤ v
  · rw [setRange, if_pos hve]
    exact ⟨hs0, hc0, hh⟩
  rw [setRange, if_neg hve]
  replace hve : v < e := Nat.lt_of_not_le hve
  obtain ⟨b0, t0, rfl⟩ : ∃ b0 t0, bs = b0 :: t0 := by
    cases bs
    · simp at hh
    · exact ⟨_, _, rfl⟩
  have hb0 : b0.virt = 0 := by
    simpa using hh
  have hAmem : ∀ z ∈ leftBlocks (b0 :: t0) v, z.virt < v := by
    intro z hz
    simpa using List.of_mem_filter hz
  have hRmem : ∀ z ∈ rightBlocks (b0 :: t0) e, e < z.virt := by
    intro z hz
    simpa using List.of_mem_filter hz
  have hAs : (leftBlocks (b0 :: t0) v).Pairwise fun a b => a.virt < b.virt :=
    hs.filter _
  have hRs : (rightBlocks (b0 :: t0) e).Pairwise fun a b => a.virt < b.virt :=
    hs.filter _
  have hAc : (leftBlocks (b0 :: t0) v).Chain' fun a b => ¬ Mergeable ops a b := by
    have hc2 := hc
    rw [sorted_decomp_left v hs, List.chain'_append] at hc2
    exact hc2.1
  have hRc : (rightBlocks (b0 :: t0) e).Chain' fun a b => ¬ Mergeable ops a b := by
    have hc2 := hc
    rw [sorted_decomp_right e hs, List.chain'_append] at hc2
    exact hc2.2.1
  obtain ⟨ct, hcov⟩ := cover_isSome (b0 :: t0) e (by simp)
  have hT : tailBlocks ops (b0 :: t0) e =
      [Block.mk e (rebase ops ct.phys (e - ct.virt)) ct.extraInfo] := by
    rw [tailBlocks, hcov]
  have hTmem : ∀ z ∈ tailBlocks ops (b0 :: t0) e, z.virt = e := by
    intro z hz
    rw [hT] at hz
    simp at hz
    rw [hz]
  have hg1s : (glue ops (leftBlocks (b0 :: t0) v) [Block.mk v p x]).Pairwise
      fun a b => a.virt < b.virt := by
    refine glue_pairwise hAs (by simp) ?_
    intro z hz y hy
    simp at hy
    rw [hy]
    exact hAmem z hz
  have hg1c : (glue ops (leftBlocks (b0 :: t0) v) [Block.mk v p x]).Chain'
      fun a b => ¬ Mergeable ops a b := glue_chain hAc (by simp)
  have hg1mem : ∀ z ∈ glue ops (leftBlocks (b0 :: t0) v) [Block.mk v p x],
      z.virt ≤ v := by
    intro z hz
    rcases glue_mem hz with hz | hz
    · exact Nat.le_of_lt (hAmem z hz)
    · simp at hz
      rw [hz]
  have hg1ne : glue ops (leftBlocks (b0 :: t0) v) [Block.mk v p x] ≠ [] := by
    cases hA : leftBlocks (b0 :: t0) v with
    | nil => rw [glue_nil_left]; simp
    | cons ha ta => exact glue_ne_nil _ (by simp)
  have hg2s : (glue ops (glue ops (leftBlocks (b0 :: t0) v) [Block.mk v p x])
      (tailBlocks ops (b0 :: t0) e)).Pairwise fun a b => a.virt < b.virt := by
    refine glue_pairwise hg1s (by rw [hT]; simp) ?_
    intro z hz y hy
    rw [hTmem y hy]
    exact Nat.lt_of_le_of_lt (hg1mem z hz) hve
  have hg2c : (glue ops (glue ops (leftBlocks (b0 :: t0) v) [Block.mk v p x])
      (tailBlocks ops (b0 :: t0) e)).Chain' fun a b => ¬ Mergeable ops a b :=
    glue_chain hg1c (by rw [hT]; simp)
  have hg2mem : ∀ z ∈ glue ops (glue ops (leftBlocks (b0 :: t0) v) [Block.mk v p x])
      (tailBlocks ops (b0 :: t0) e), z.virt ≤ e := by
    intro z hz
    rcases glue_mem hz with hz | hz
    · exact Nat.le_trans (hg1mem z hz) (Nat.le_of_lt hve)
    · rw [hTmem z hz]
  have hg2ne : glue ops (glue ops (leftBlocks (b0 :: t0) v) [Block.mk v p x])
      (tailBlocks ops (b0 :: t0) e) ≠ [] := glue_ne_nil _ hg1ne
  refine ⟨?_, ?_, ?_⟩
  · refine glue_pairwise hg2s hRs ?_
    intro z hz y hy
    exact Nat.lt_of_le_of_lt (hg2mem z hz) (hRmem y hy)
  · exact glue_chain hg2c hRc
  · rw [List.head?_map, glue_head _ hg2ne, glue_head _ hg1ne]
    by_cases hv0 : v = 0
    · have hA : leftBlocks (b0 :: t0) v = [] := by
        refine List.filter_eq_nil_iff.mpr ?_
        intro z _
        simp [hv0]
      rw [hA, glue_nil_left]
      simp [hv0]
    · have hA : (leftBlocks (b0 :: t0) v).head? = some b0 := by
        rw [leftBlocks, List.filter_cons, if_pos (by simp; omega)]
        rfl
      have hAne : leftBlocks (b0 :: t0) v ≠ [] := by
        intro hnil
        rw [hnil] at hA
        simp at hA
      rw [glue_head _ hAne, hA]
      simp [hb0]

/-- Every public call on a `FlatMemoryManager` preserves the block invariant. -/
theorem applyMemOp_invariant {st : FlatMemoryManager}
    (hInv : InvariantB memOps st.blocks) (op : MemOp) :
    InvariantB memOps (applyMemOp st op).blocks := by
  cases op with
  | map v p s x =>
    rw [applyMemOp, Map]
    by_cases hlim : st.vaLimit < v + s
    · rw [if_pos hlim]
      exact hInv
    · rw [if_neg hlim]
      exact setRange_invariant v (v + s) p x hInv
  | unmap v s =>
    rw [applyMemOp, Unmap]
    exact setRange_invariant v (v + s) memOps.unmapped default hInv

theorem applyMemOps_invariant {st : FlatMemoryManager}
    (hInv : InvariantB memOps st.blocks) :
    ∀ l : List MemOp, InvariantB memOps (applyMemOps l st).blocks := by
  intro l
  induction l generalizing st with
  | nil => exact hInv
  | cons op rest ih => exact ih (applyMemOp_invariant hInv op)

/-- Every public call on a `FlatAllocator` preserves the block invariant. -/
theorem applyAllocOp_invariant {a : FlatAllocator}
    (hInv : InvariantB boolOps a.blocks) (op : AllocOp) :
    InvariantB boolOps (applyAllocOp a op).blocks := by
  cases op with
  | map v p s =>
    rw [applyAllocOp]
    by_cases hlim : a.vaLimit < v + s
    · rw [if_pos hlim]
      exact hInv
    · rw [if_neg hlim]
      exact setRange_invariant v (v + s) p () hInv
  | unmap v s => exact setRange_invariant v (v + s) false () hInv
  | allocate s =>
    rw [applyAllocOp, Allocate]
    by_cases hlin : a.currentLinearAllocEnd + s ≤ a.vaLimit
    · rw [if_pos hlin]
      exact setRange_invariant _ _ true () hInv
    · rw [if_neg hlin]
      cases hff : firstFit a.blocks a.vaStart a.vaLimit s with
      | some r => exact setRange_invariant r (r + s) true () hInv
      | none => exact hInv
  | allocateFixed v s =>
    rw [applyAllocOp, AllocateFixed]
    by_cases hlim : a.vaLimit < v + s
    · rw [if_pos hlim]
      exact hInv
    · rw [if_neg hlim]
      exact setRange_invariant v (v + s) true () hInv
  | free v s => exact setRange_invariant v (v + s) false () hInv

theorem applyAllocOps_invariant {a : FlatAllocator}
    (hInv : InvariantB boolOps a.blocks) :
    ∀ l : List AllocOp, InvariantB boolOps (applyAllocOps l a).blocks := by
  intro l
  induction l generalizing a with
  | nil => exact hInv
  | cons op rest ih => exact ih (applyAllocOp_invariant hInv op)

/-- The sentinel-only initial block vector satisfies the invariant. -/
theorem initMap_invariant (ops : PaOps PA) [DecidableEq PA] [DecidableEq Extra]
    [Inhabited Extra] (vaLimit : Nat) :
    InvariantB ops ((initMap ops vaLimit : FlatAddressSpaceMap PA Extra)).blocks :=
  ⟨List.pairwise_singleton _ _, List.chain'_singleton _, rfl⟩

/-- Overwriting the same range with the same payload twice is the same as
doing it once: the second pass recomputes exactly the same left part, new
block, tail fragment and right part, and the re-merge stops at the same
junctions. -/
theorem setRange_idem {ops : PaOps PA} [DecidableEq PA] [DecidableEq Extra]
    (bs : List (Block PA Extra)) (v e : Nat) (p : PA) (x : Extra) (hbs : bs ≠ []) :
    setRange ops (setRange ops bs v e p x) v e p x = setRange ops bs v e p x := by
  by_cases hve0 : e ≤ v
  · rw [setRange, if_pos hve0]
  have hve : v < e := Nat.lt_of_not_le hve0
  obtain ⟨ct, hcov⟩ := cover_isSome bs e hbs
  have hT : tailBlocks ops bs e =
      [Block.mk e (rebase ops ct.phys (e - ct.virt)) ct.extraInfo] := by
    rw [tailBlocks, hcov]
  have hAmem : ∀ z ∈ leftBlocks bs v, z.virt < v := by
    intro z hz
    simpa using List.of_mem_filter hz
  have hRmem : ∀ z ∈ rightBlocks bs e, e < z.virt := by
    intro z hz
    simpa using List.of_mem_filter hz
  obtain ⟨k1, hk1, heq1, htake1, hdrop1⟩ :=
    glue_spec ops (leftBlocks bs v) [Block.mk v p x]
  obtain ⟨k2, hk2, heq2, htake2, hdrop2⟩ :=
    glue_spec ops (glue ops (leftBlocks bs v) [Block.mk v p x]) (tailBlocks ops bs e)
  obtain ⟨k3, hk3, heq3, htake3, hdrop3⟩ :=
    glue_spec ops
      (glue ops (glue ops (leftBlocks bs v) [Block.mk v p x]) (tailBlocks ops bs e))
      (rightBlocks bs e)
  have hsr : setRange ops bs v e p x =
      glue ops (glue ops (glue ops (leftBlocks bs v) [Block.mk v p x])
        (tailBlocks ops bs e)) (rightBlocks bs e) := by
    rw [setRange, if_neg hve0]
  have hg1mem : ∀ z ∈ glue ops (leftBlocks bs v) [Block.mk v p x], z.virt ≤ v := by
    intro z hz
    rcases glue_mem hz with hz | hz
    · exact Nat.le_of_lt (hAmem z hz)
    · simp at hz
      rw [hz]
  have hg1ne : glue ops (leftBlocks bs v) [Block.mk v p x] ≠ [] := by
    cases hA : leftBlocks bs v with
    | nil => rw [glue_nil_left]; simp
    | cons ha ta => exact glue_ne_nil _ (by simp)
  have hd1mem : ∀ z ∈ ([Block.mk v p x].drop k1), z.virt = v := by
    intro z hz
    have hz2 := List.drop_subset _ _ hz
    simp at hz2
    rw [hz2]
  have hd2mem : ∀ z ∈ ((tailBlocks ops bs e).drop k2), z.virt = e := by
    intro z hz
    have hz2 := List.drop_subset _ _ hz
    rw [hT] at hz2
    simp at hz2
    rw [hz2]
  have hd3mem : ∀ z ∈ ((rightBlocks bs e).drop k3), e < z.virt := by
    intro z hz
    exact hRmem z (List.drop_subset _ _ hz)
  -- the explicit shape of the round-1 result
  have hshape : setRange ops bs v e p x =
      ((leftBlocks bs v ++ [Block.mk v p x].drop k1) ++
        (tailBlocks ops bs e).drop k2) ++ (rightBlocks bs e).drop k3 := by
    rw [hsr, heq3, heq2, heq1]
  -- the second pass recomputes the same left part
  have hL : leftBlocks (setRange ops bs v e p x) v = leftBlocks bs v := by
    rw [hshape, leftBlocks_append, leftBlocks_append, leftBlocks_append]
    rw [leftBlocks_eq_self (leftBlocks bs v) hAmem,
      leftBlocks_eq_nil ([Block.mk v p x].drop k1)
        (by intro z hz; rw [hd1mem z hz]; omega),
      leftBlocks_eq_nil ((tailBlocks ops bs e).drop k2)
        (by intro z hz; rw [hd2mem z hz]; omega),
      leftBlocks_eq_nil ((rightBlocks bs e).drop k3)
        (by intro z hz; have := hd3mem z hz; omega)]
    simp
  -- the second pass recomputes the same right part
  have hR : rightBlocks (setRange ops bs v e p x) e = (rightBlocks bs e).drop k3 := by
    rw [hshape, rightBlocks_append, rightBlocks_append, rightBlocks_append]
    rw [rightBlocks_eq_nil (leftBlocks bs v)
        (by intro z hz; have := hAmem z hz; omega),
      rightBlocks_eq_nil ([Block.mk v p x].drop k1)
        (by intro z hz; rw [hd1mem z hz]; omega),
      rightBlocks_eq_nil ((tailBlocks ops bs e).drop k2)
        (by intro z hz; rw [hd2mem z hz]; omega),
      rightBlocks_eq_self ((rightBlocks bs e).drop k3) hd3mem]
    simp
  -- the second pass recomputes the same tail fragment
  have hTail : tailBlocks ops (setRange ops bs v e p x) e = tailBlocks ops bs e := by
    have hk2cases : k2 = 0 ∨ k2 = 1 := by
      rw [hT] at hk2
      simp at hk2
      omega
    rcases hk2cases with hk2e | hk2e
    · -- the tail fragment survived the merge stage
      have hst : setRange ops bs v e p x =
          (glue ops (leftBlocks bs v) [Block.mk v p x] ++
            [Block.mk e (rebase ops ct.phys (e - ct.virt)) ct.extraInfo]) ++
            (rightBlocks bs e).drop k3 := by
        rw [hsr, heq3, heq2, hk2e, hT]
        simp
      have hcov2 : coverBlock (setRange ops bs v e p x) e =
          some (Block.mk e (rebase ops ct.phys (e - ct.virt)) ct.extraInfo) := by
        rw [hst,
          cover_append_ys_high
            (glue ops (leftBlocks bs v) [Block.mk v p x] ++
              [Block.mk e (rebase ops ct.phys (e - ct.virt)) ct.extraInfo])
            ((rightBlocks bs e).drop k3) hd3mem (by simp),
          cover_all_le _ ?hle (by simp)]
        · simp
        case hle =>
          intro z hz
          rw [List.mem_append] at hz
          rcases hz with hz | hz
          · exact Nat.le_trans (hg1mem z hz) (Nat.le_of_lt hve)
          · simp at hz
            rw [hz]
      rw [tailBlocks, hcov2, hT]
      simp [rebase_zero]
    · -- the tail fragment was absorbed into the previous block
      obtain ⟨g1last, hg1last, hmer⟩ := htake2
        (Block.mk e (rebase ops ct.phys (e - ct.virt)) ct.extraInfo)
        (by rw [hk2e, hT]; simp)
      have hst : setRange ops bs v e p x =
          glue ops (leftBlocks bs v) [Block.mk v p x] ++
            (rightBlocks bs e).drop k3 := by
        rw [hsr, heq3, heq2, hk2e, hT]
        simp
      have hcov2 : coverBlock (setRange ops bs v e p x) e = some g1last := by
        rw [hst,
          cover_append_ys_high (glue ops (leftBlocks bs v) [Block.mk v p x])
            ((rightBlocks bs e).drop k3) hd3mem hg1ne,
          cover_all_le _ (fun z hz => Nat.le_trans (hg1mem z hz) (Nat.le_of_lt hve))
            hg1ne]
        exact hg1last
      rw [tailBlocks, hcov2, hT]
      have hrec := mergeable_reconstruct hmer
      simp only at hrec
      show [Block.mk e (rebase ops g1last.phys (e - g1last.virt)) g1last.extraInfo] =
        [Block.mk e (rebase ops ct.phys (e - ct.virt)) ct.extraInfo]
      rw [hrec]
  -- assemble the second pass
  have hsr2 := hsr
  have hgen : ∃ st2, setRange ops bs v e p x = st2 := ⟨_, rfl⟩
  obtain ⟨st2, hgen⟩ := hgen
  rw [hgen] at hL hTail hR hsr2 ⊢
  rw [setRange, if_neg hve0, hL, hTail, hR]
  rw [glue_append_of_not_mergeable _ _ hdrop3, hsr2, heq3]

/-- Unfolding lemma: the default extra info of a memory-manager block is the
non-sparse flag. -/
theorem default_extraInfo_eq : (default : MemoryManagerBlockInfo) = noSparse := rfl

/-- In a weakly sorted block list, every element's start is at most the last
element's start. -/
theorem pairwise_le_last :
    ∀ {xs : List (Block PA Extra)},
      (xs.Pairwise fun c d => c.virt ≤ d.virt) → ∀ {a : Block PA Extra},
      xs.getLast? = some a → ∀ z ∈ xs, z.virt ≤ a.virt
  | [], _, _, ha => by simp at ha
  | [w], _, a, ha => by
    simp at ha
    intro z hz
    simp at hz
    rw [hz, ha]
  | w :: w2 :: xs, h, a, ha => by
    rw [List.getLast?_cons_cons] at ha
    have hp := List.pairwise_cons.mp h
    intro z hz
    rcases List.mem_cons.mp hz with hz | hz
    · have hmem : a ∈ w2 :: xs := by
        obtain ⟨hne, heq⟩ := List.mem_getLast?_eq_getLast (by rw [ha]; rfl)
        rw [heq]
        exact List.getLast_mem hne
      rw [hz]
      exact hp.1 a hmem
    · exact pairwise_le_last hp.2 ha z hz

/-- Dropping a block that is mergeable with the last block before it does not
change the payload stored for any address: the absorbed block's run is read
through its predecessor with identical results. -/
theorem payload_drop_one {ops : PaOps PA} [DecidableEq PA] [DecidableEq Extra]
    [Inhabited Extra] {xs ys : List (Block PA Extra)} {a y : Block PA Extra}
    (hlast : xs.getLast? = some a) (hm : Mergeable ops a y)
    (hxs : ∀ z ∈ xs, z.virt ≤ a.virt) (hay : a.virt ≤ y.virt)
    (hys : ∀ z ∈ ys, y.virt ≤ z.virt)
    (hysp : ys.Pairwise fun c d => c.virt ≤ d.virt) (addr : Nat) :
    payloadAt ops (xs ++ y :: ys) addr = payloadAt ops (xs ++ ys) addr := by
  have hxs_ne : xs ≠ [] := by
    intro h
    rw [h] at hlast
    simp at hlast
  by_cases h1 : addr < y.virt
  · have e1 : coverBlock (xs ++ y :: ys) addr = coverBlock xs addr := by
      refine cover_append_ys_high xs (y :: ys) ?_ hxs_ne
      intro z hz
      rcases List.mem_cons.mp hz with hz | hz
      · rw [hz]; exact h1
      · exact Nat.lt_of_lt_of_le h1 (hys z hz)
    have e2 : coverBlock (xs ++ ys) addr = coverBlock xs addr :=
      cover_append_ys_high xs ys
        (fun z hz => Nat.lt_of_lt_of_le h1 (hys z hz)) hxs_ne
    rw [payloadAt, payloadAt, e1, e2]
  push_neg at h1
  have hxsaddr : ∀ z ∈ xs, z.virt ≤ addr := fun z hz =>
    Nat.le_trans (hxs z hz) (Nat.le_trans hay h1)
  have e1 : coverBlock (xs ++ y :: ys) addr = coverBlock (y :: ys) addr :=
    cover_append_right h1 xs ys hxsaddr
  have ecov : coverBlock xs addr = some a := by
    rw [cover_all_le xs hxsaddr hxs_ne, hlast]
  have hpay := mergeable_payload hm hay h1
  cases ys with
  | nil =>
    have e2 : coverBlock (xs ++ []) addr = some a := by
      rw [List.append_nil, ecov]
    rw [payloadAt, payloadAt, e1, e2]
    show (rebase ops y.phys (addr - y.virt), y.extraInfo) =
      (rebase ops a.phys (addr - a.virt), a.extraInfo)
    exact hpay.symm
  | cons z1 ys2 =>
    have hz1 : y.virt ≤ z1.virt := hys z1 (by simp)
    by_cases h2 : addr < z1.virt
    · have e1c : coverBlock (y :: z1 :: ys2) addr = some y := by
        rw [coverBlock, if_pos h2]
      have e2 : coverBlock (xs ++ z1 :: ys2) addr = some a := by
        rw [cover_append_ys_high xs (z1 :: ys2) ?_ hxs_ne, ecov]
        intro z hz
        rcases List.mem_cons.mp hz with hz | hz
        · rw [hz]; exact h2
        · have := (List.pairwise_cons.mp hysp).1 z hz
          omega
      rw [payloadAt, payloadAt, e1, e1c, e2]
      show (rebase ops y.phys (addr - y.virt), y.extraInfo) =
        (rebase ops a.phys (addr - a.virt), a.extraInfo)
      exact hpay.symm
    · push_neg at h2
      have e1c : coverBlock (y :: z1 :: ys2) addr = coverBlock (z1 :: ys2) addr := by
        rw [coverBlock, if_neg (by omega)]
      have e2 : coverBlock (xs ++ z1 :: ys2) addr = coverBlock (z1 :: ys2) addr :=
        cover_append_right h2 xs ys2 hxsaddr
      rw [payloadAt, payloadAt, e1, e1c, e2]

/-- Re-merging with `glue` never changes the payload stored for any address. -/
theorem payload_glue {ops : PaOps PA} [DecidableEq PA] [DecidableEq Extra]
    [Inhabited Extra] :
    ∀ (ys xs : List (Block PA Extra)), xs ≠ [] →
      ((xs ++ ys).Pairwise fun c d => c.virt ≤ d.virt) → ∀ addr,
      payloadAt ops (glue ops xs ys) addr = payloadAt ops (xs ++ ys) addr
  | [], xs, _, _, addr => by rw [glue, List.append_nil]
  | y :: ys, xs, hne, hsort, addr => by
    rw [glue]
    cases hlast : xs.getLast? with
    | none => exact absurd (List.getLast?_eq_none_iff.mp hlast) hne
    | some a =>
      show payloadAt ops
          (if Mergeable ops a y then glue ops xs ys else xs ++ y :: ys) addr =
        payloadAt ops (xs ++ y :: ys) addr
      by_cases hm : Mergeable ops a y
      · rw [if_pos hm]
        have hsplit := List.pairwise_append.mp hsort
        have hxs : ∀ z ∈ xs, z.virt ≤ a.virt := pairwise_le_last hsplit.1 hlast
        have hamem : a ∈ xs := by
          obtain ⟨hne2, heq⟩ := List.mem_getLast?_eq_getLast (by rw [hlast]; rfl)
          rw [heq]
          exact List.getLast_mem hne2
        have hay : a.virt ≤ y.virt := hsplit.2.2 a hamem y (by simp)
        have hyscons := List.pairwise_cons.mp hsplit.2.1
        have hsort2 : (xs ++ ys).Pairwise fun c d => c.virt ≤ d.virt :=
          hsort.sublist ((List.sublist_cons_self y ys).append_left xs)
        have step := payload_drop_one hlast hm hxs hay hyscons.1 hyscons.2 addr
        rw [payload_glue ys xs hne hsort2 addr, step]
      · rw [if_neg hm]

/-- Payloads are determined by the covering block alone. -/
theorem payloadAt_congr_cover {ops : PaOps PA} [DecidableEq PA] [Inhabited Extra]
    {bs1 bs2 : List (Block PA Extra)} {a : Nat}
    (h : coverBlock bs1 a = coverBlock bs2 a) :
    payloadAt ops bs1 a = payloadAt ops bs2 a := by
  rw [payloadAt, payloadAt, h]

/-- The pointwise semantics of the structural core: overwriting `[v, e)` sets
the payload of every address in the range to the new payload (rebased 1-1 with
the distance into the range) and leaves the payload of every other address
unchanged. -/
theorem payload_setRange {ops : PaOps PA} [DecidableEq PA] [DecidableEq Extra]
    [Inhabited Extra] {bs : List (Block PA Extra)}
    (hs : bs.Pairwise fun c d => c.virt < d.virt)
    (h0 : (bs.map Block.virt).head? = some 0)
    (v e : Nat) (p : PA) (x : Extra) (hve : v < e) (addr : Nat) :
    payloadAt ops (setRange ops bs v e p x) addr =
      if v ≤ addr ∧ addr < e then (rebase ops p (addr - v), x)
      else payloadAt ops bs addr := by
  obtain ⟨b0, t0, rfl⟩ : ∃ b0 t0, bs = b0 :: t0 := by
    cases bs
    · simp at h0
    · exact ⟨_, _, rfl⟩
  have hb0 : b0.virt = 0 := by simpa using h0
  rw [setRange, if_neg (by omega)]
  have hAmem : ∀ z ∈ leftBlocks (b0 :: t0) v, z.virt < v := by
    intro z hz
    simpa using List.of_mem_filter hz
  have hRmem : ∀ z ∈ rightBlocks (b0 :: t0) e, e < z.virt := by
    intro z hz
    simpa using List.of_mem_filter hz
  have hAs : (leftBlocks (b0 :: t0) v).Pairwise fun c d => c.virt < d.virt :=
    hs.filter _
  have hRs : (rightBlocks (b0 :: t0) e).Pairwise fun c d => c.virt < d.virt :=
    hs.filter _
  obtain ⟨ct, hcov⟩ := cover_isSome (b0 :: t0) e (by simp)
  have hT : tailBlocks ops (b0 :: t0) e =
      [Block.mk e (rebase ops ct.phys (e - ct.virt)) ct.extraInfo] := by
    rw [tailBlocks, hcov]
  have hg1s : (glue ops (leftBlocks (b0 :: t0) v) [Block.mk v p x]).Pairwise
      fun c d => c.virt < d.virt := by
    refine glue_pairwise hAs (by simp) ?_
    intro z hz y hy
    simp at hy
    rw [hy]
    exact hAmem z hz
  have hg1mem : ∀ z ∈ glue ops (leftBlocks (b0 :: t0) v) [Block.mk v p x],
      z.virt ≤ v := by
    intro z hz
    rcases glue_mem hz with hz | hz
    · exact Nat.le_of_lt (hAmem z hz)
    · simp at hz
      rw [hz]
  have hg1ne : glue ops (leftBlocks (b0 :: t0) v) [Block.mk v p x] ≠ [] := by
    cases hA : leftBlocks (b0 :: t0) v with
    | nil => rw [glue_nil_left]; simp
    | cons ha ta => exact glue_ne_nil _ (by simp)
  have hg2s : (glue ops (glue ops (leftBlocks (b0 :: t0) v) [Block.mk v p x])
      (tailBlocks ops (b0 :: t0) e)).Pairwise fun c d => c.virt < d.virt := by
    refine glue_pairwise hg1s (by rw [hT]; simp) ?_
    intro z hz y hy
    rw [hT] at hy
    simp at hy
    rw [hy]
    exact Nat.lt_of_le_of_lt (hg1mem z hz) hve
  have hg2mem : ∀ z ∈ glue ops (glue ops (leftBlocks (b0 :: t0) v)
      [Block.mk v p x]) (tailBlocks ops (b0 :: t0) e), z.virt ≤ e := by
    intro z hz
    rcases glue_mem hz with hz | hz
    · exact Nat.le_trans (hg1mem z hz) (Nat.le_of_lt hve)
    · rw [hT] at hz
      simp at hz
      rw [hz]
  have hg2ne : glue ops (glue ops (leftBlocks (b0 :: t0) v) [Block.mk v p x])
      (tailBlocks ops (b0 :: t0) e) ≠ [] := glue_ne_nil _ hg1ne
  -- the sorted decomposition at e, and the position of the covering block
  have hMdec := sorted_decomp_right e hs
  have hMmem : ∀ z ∈ ((b0 :: t0).filter fun b => b.virt ≤ e), z.virt ≤ e := by
    intro z hz
    simpa using List.of_mem_filter hz
  have hMne : ((b0 :: t0).filter fun b => b.virt ≤ e) ≠ [] := by
    rw [List.filter_cons, if_pos (by simp; omega)]
    simp
  have hctM : ((b0 :: t0).filter fun b => b.virt ≤ e).getLast? = some ct := by
    have h1 : coverBlock (b0 :: t0) e =
        coverBlock ((b0 :: t0).filter fun b => b.virt ≤ e) e := by
      conv_lhs => rw [hMdec]
      exact cover_append_ys_high _ _ hRmem hMne
    rw [h1, cover_all_le _ hMmem hMne] at hcov
    exact hcov
  have hctle : ct.virt ≤ e := by
    obtain ⟨hne2, heq⟩ := List.mem_getLast?_eq_getLast (by rw [hctM]; rfl)
    exact hMmem ct (heq ▸ List.getLast_mem hne2)
  -- step A: strip the outermost glue
  have hLeG2R : ((glue ops (glue ops (leftBlocks (b0 :: t0) v) [Block.mk v p x])
      (tailBlocks ops (b0 :: t0) e)) ++ rightBlocks (b0 :: t0) e).Pairwise
      fun c d => c.virt ≤ d.virt := by
    rw [List.pairwise_append]
    exact ⟨hg2s.imp Nat.le_of_lt, hRs.imp Nat.le_of_lt,
      fun z hz y hy => Nat.le_of_lt
        (Nat.lt_of_le_of_lt (hg2mem z hz) (hRmem y hy))⟩
  rw [payload_glue _ _ hg2ne hLeG2R addr]
  -- step B: strip the middle glue  (as a payload fact about the g2 part)
  have hLeG1T : ((glue ops (leftBlocks (b0 :: t0) v) [Block.mk v p x]) ++
      tailBlocks ops (b0 :: t0) e).Pairwise fun c d => c.virt ≤ d.virt := by
    rw [List.pairwise_append]
    refine ⟨hg1s.imp Nat.le_of_lt, by rw [hT]; simp, ?_⟩
    intro z hz y hy
    rw [hT] at hy
    simp at hy
    rw [hy]
    exact Nat.le_trans (hg1mem z hz) (Nat.le_of_lt hve)
  have hpayg2 : ∀ q : Nat, payloadAt ops (glue ops (glue ops
      (leftBlocks (b0 :: t0) v) [Block.mk v p x])
      (tailBlocks ops (b0 :: t0) e)) q =
      payloadAt ops ((glue ops (leftBlocks (b0 :: t0) v) [Block.mk v p x]) ++
        tailBlocks ops (b0 :: t0) e) q :=
    payload_glue _ _ hg1ne hLeG1T
  -- the payload of the edited region and of low addresses, via the g2 part
  have hg2pay : ∀ q : Nat, ¬ e ≤ q → payloadAt ops (glue ops (glue ops
      (leftBlocks (b0 :: t0) v) [Block.mk v p x])
      (tailBlocks ops (b0 :: t0) e)) q =
      if v ≤ q ∧ q < e then (rebase ops p (q - v), x)
      else payloadAt ops (b0 :: t0) q := by
    intro q hq
    push_neg at hq
    rw [hpayg2 q]
    have hcovT : coverBlock ((glue ops (leftBlocks (b0 :: t0) v)
        [Block.mk v p x]) ++ tailBlocks ops (b0 :: t0) e) q =
        coverBlock (glue ops (leftBlocks (b0 :: t0) v) [Block.mk v p x]) q := by
      refine cover_append_ys_high _ _ ?_ hg1ne
      intro z hz
      rw [hT] at hz
      simp at hz
      rw [hz]
      exact hq
    rw [payloadAt_congr_cover hcovT]
    by_cases hv2 : v ≤ q
    · rw [if_pos ⟨hv2, hq⟩]
      by_cases hA : leftBlocks (b0 :: t0) v = []
      · rw [hA, glue_nil_left]
        simp [payloadAt, coverBlock]
      · have hAne : leftBlocks (b0 :: t0) v ≠ [] := hA
        have hLeAN : ((leftBlocks (b0 :: t0) v) ++ [Block.mk v p x]).Pairwise
            fun c d => c.virt ≤ d.virt := by
          rw [List.pairwise_append]
          refine ⟨hAs.imp Nat.le_of_lt, by simp, ?_⟩
          intro z hz y hy
          simp at hy
          rw [hy]
          exact Nat.le_of_lt (hAmem z hz)
        rw [payload_glue _ _ hAne hLeAN q]
        have hcovN : coverBlock ((leftBlocks (b0 :: t0) v) ++
            [Block.mk v p x]) q = some (Block.mk v p x) := by
          rw [cover_append_right hv2 _ []
            (fun z hz => Nat.le_trans (Nat.le_of_lt (hAmem z hz)) hv2)]
          rfl
        rw [payloadAt, hcovN]
    · push_neg at hv2
      rw [if_neg (by omega)]
      have hAne : leftBlocks (b0 :: t0) v ≠ [] := by
        have : b0 ∈ leftBlocks (b0 :: t0) v := by
          rw [leftBlocks, List.filter_cons, if_pos (by simp; omega)]
          simp
        intro hnil
        rw [hnil] at this
        simp at this
      have hLeAN : ((leftBlocks (b0 :: t0) v) ++ [Block.mk v p x]).Pairwise
          fun c d => c.virt ≤ d.virt := by
        rw [List.pairwise_append]
        refine ⟨hAs.imp Nat.le_of_lt, by simp, ?_⟩
        intro z hz y hy
        simp at hy
        rw [hy]
        exact Nat.le_of_lt (hAmem z hz)
      rw [payload_glue _ _ hAne hLeAN q]
      have hcovA : coverBlock ((leftBlocks (b0 :: t0) v) ++ [Block.mk v p x]) q =
          coverBlock (leftBlocks (b0 :: t0) v) q := by
        refine cover_append_ys_high _ _ ?_ hAne
        intro z hz
        simp at hz
        rw [hz]
        exact hv2
      have hcovbs : coverBlock (b0 :: t0) q =
          coverBlock (leftBlocks (b0 :: t0) v) q := by
        conv_lhs => rw [sorted_decomp_left v hs]
        refine cover_append_ys_high _ _ ?_ hAne
        intro z hz
        have : v ≤ z.virt := by simpa using List.of_mem_filter hz
        omega
      rw [payloadAt_congr_cover hcovA, payloadAt_congr_cover hcovbs.symm]
  -- now the zone analysis over the right part
  cases hRdes : rightBlocks (b0 :: t0) e with
  | nil =>
    rw [List.append_nil]
    by_cases he2 : e ≤ addr
    · -- high zone with no right part: the tail fragment covers everything
      rw [hpayg2 addr]
      have hcovT : coverBlock ((glue ops (leftBlocks (b0 :: t0) v)
          [Block.mk v p x]) ++ tailBlocks ops (b0 :: t0) e) addr =
          some (Block.mk e (rebase ops ct.phys (e - ct.virt)) ct.extraInfo) := by
        rw [hT]
        rw [cover_append_right he2 _ []
          (fun z hz => Nat.le_trans (hg1mem z hz) (by omega))]
        rfl
      rw [payloadAt, hcovT]
      have hcovbs : coverBlock (b0 :: t0) addr = some ct := by
        conv_lhs => rw [hMdec, hRdes, List.append_nil]
        rw [cover_all_le _ (fun z hz => Nat.le_trans (hMmem z hz) he2) hMne]
        exact hctM
      rw [if_neg (by omega), payloadAt, hcovbs]
      show (rebase ops (rebase ops ct.phys (e - ct.virt)) (addr - e),
        ct.extraInfo) = (rebase ops ct.phys (addr - ct.virt), ct.extraInfo)
      rw [rebase_rebase]
      congr 2
      omega
    · exact hg2pay addr he2
  | cons r R2 =>
    have hre : e < r.virt := by
      have : r ∈ rightBlocks (b0 :: t0) e := by rw [hRdes]; simp
      exact hRmem r this
    by_cases hr : r.virt ≤ addr
    · -- the queried address lies in the unchanged right part
      have he2 : e < addr := by omega
      have hcov1 : coverBlock ((glue ops (glue ops (leftBlocks (b0 :: t0) v)
          [Block.mk v p x]) (tailBlocks ops (b0 :: t0) e)) ++ r :: R2) addr =
          coverBlock (r :: R2) addr :=
        cover_append_right hr _ _
          (fun z hz => Nat.le_trans (hg2mem z hz) (by omega))
      have hcov2 : coverBlock (b0 :: t0) addr = coverBlock (r :: R2) addr := by
        conv_lhs => rw [hMdec, hRdes]
        exact cover_append_right hr _ _
          (fun z hz => Nat.le_trans (hMmem z hz) (by omega))
      rw [payloadAt_congr_cover hcov1, if_neg (by omega),
        payloadAt_congr_cover hcov2.symm]
    · -- the right part is entirely above the queried address
      push_neg at hr
      have hhigh : ∀ z ∈ (r :: R2 : List (Block PA Extra)), addr < z.virt := by
        intro z hz
        rcases List.mem_cons.mp hz with hz | hz
        · rw [hz]; exact hr
        · have hz2 : z ∈ rightBlocks (b0 :: t0) e := by rw [hRdes]; simp [hz]
          have hpair := List.pairwise_cons.mp (hRdes ▸ hRs)
          have := hpair.1 z hz
          omega
      have hcov1 : coverBlock ((glue ops (glue ops (leftBlocks (b0 :: t0) v)
          [Block.mk v p x]) (tailBlocks ops (b0 :: t0) e)) ++ r :: R2) addr =
          coverBlock (glue ops (glue ops (leftBlocks (b0 :: t0) v)
            [Block.mk v p x]) (tailBlocks ops (b0 :: t0) e)) addr :=
        cover_append_ys_high _ _ hhigh hg2ne
      rw [payloadAt_congr_cover hcov1]
      by_cases he2 : e ≤ addr
      · -- high zone between e and the right part
        rw [hpayg2 addr]
        have hcovT : coverBlock ((glue ops (leftBlocks (b0 :: t0) v)
            [Block.mk v p x]) ++ tailBlocks ops (b0 :: t0) e) addr =
            some (Block.mk e (rebase ops ct.phys (e - ct.virt)) ct.extraInfo) := by
          rw [hT]
          rw [cover_append_right he2 _ []
            (fun z hz => Nat.le_trans (hg1mem z hz) (by omega))]
          rfl
        rw [payloadAt, hcovT]
        have hcovbs : coverBlock (b0 :: t0) addr = some ct := by
          conv_lhs => rw [hMdec, hRdes]
          rw [cover_append_ys_high _ _ hhigh hMne]
          rw [cover_all_le _ (fun z hz => Nat.le_trans (hMmem z hz) he2) hMne]
          exact hctM
        rw [if_neg (by omega), payloadAt, hcovbs]
        show (rebase ops (rebase ops ct.phys (e - ct.virt)) (addr - e),
          ct.extraInfo) = (rebase ops ct.phys (addr - ct.virt), ct.extraInfo)
        rw [rebase_rebase]
        congr 2
        omega
      · exact hg2pay addr he2

/-- The block vector after a single successful `Map` on a fresh memory
manager: an optional leading hole below `virt0`, the mapped block, and the
unmapped remainder starting at the end of the mapping. -/
theorem map_from_init_blocks (L virt0 size0 phys0 : Nat)
    (x : MemoryManagerBlockInfo) (hph : phys0 ≠ 0) (hsz : 0 < size0)
    (hlim : virt0 + size0 ≤ L) :
    (Map memOps (FlatMemoryManager.init L) virt0 phys0 size0 x).1.blocks =
      (if virt0 = 0 then [] else [Block.mk 0 0 noSparse]) ++
        [Block.mk virt0 phys0 x, Block.mk (virt0 + size0) 0 noSparse] := by
  by_cases hv0 : virt0 = 0
  · subst hv0
    simp only [Map, FlatMemoryManager.init, initMap]
    rw [if_neg (by simp; omega)]
    simp only [setRange]
    rw [if_neg (by omega)]
    norm_num [leftBlocks, tailBlocks, rightBlocks, glue, coverBlock, rebase,
      Mergeable, memOps, noSparse, default_extraInfo_eq, hph]
  · simp only [Map, FlatMemoryManager.init, initMap]
    rw [if_neg (by simp; omega)]
    simp only [setRange]
    rw [if_neg (by omega)]
    norm_num [leftBlocks, tailBlocks, rightBlocks, glue, coverBlock, rebase,
      Mergeable, memOps, noSparse, default_extraInfo_eq, hph, hv0,
      Nat.pos_of_ne_zero hv0]

/-- Translating a subrange of a single mapping made on a fresh memory manager
yields exactly one span, emitted for the mapped block and sized to the query
(or nothing for an empty query). -/
theorem translate_sub (L virt0 size0 phys0 : Nat) (x : MemoryManagerBlockInfo)
    (hph : phys0 ≠ 0) (hsz0 : 0 < size0) (hlim : virt0 + size0 ≤ L)
    (virt size : Nat) (hv : virt0 ≤ virt) (he : virt + size ≤ virt0 + size0) :
    TranslateRange (Map memOps (FlatMemoryManager.init L) virt0 phys0 size0 x).1
      virt size =
      if size = 0 then []
      else [mkSpan (Block.mk virt0 phys0 x) virt (virt + size)] := by
  rw [TranslateRange, map_from_init_blocks L virt0 size0 phys0 x hph hsz0 hlim]
  have hlast : translateBlocks [Block.mk (virt0 + size0) 0 noSparse] virt
      (virt + size) = [] := by
    rw [translateBlocks]
    rw [if_neg (by simp; omega)]
  have hmid : translateBlocks
      [Block.mk virt0 phys0 x, Block.mk (virt0 + size0) 0 noSparse] virt
      (virt + size) =
      if size = 0 then []
      else [mkSpan (Block.mk virt0 phys0 x) virt (virt + size)] := by
    rw [translateBlocks, hlast]
    simp only [List.append_nil]
    have hlo : max virt (Block.mk virt0 phys0 x).virt = virt := by
      simp
      omega
    have hhi : min (virt + size) (Block.mk (virt0 + size0) 0 noSparse).virt =
        virt + size := by
      simp
      omega
    rw [hlo, hhi]
    by_cases hsz : size = 0
    · subst hsz
      simp
    · rw [if_pos (by omega), if_neg hsz]
  by_cases hv0 : virt0 = 0
  · rw [if_pos hv0, List.nil_append, hmid]
  · rw [if_neg hv0]
    rw [List.singleton_append, translateBlocks]
    rw [hmid]
    have hhi0 : min (virt + size) (Block.mk virt0 phys0 x).virt = virt0 := by
      simp
      omega
    rw [hhi0]
    rw [if_neg (by simp; omega), List.nil_append]

/-- `occupiedAt` is the physical component of the stored payload (for the
allocator the boolean payload is never offset by rebasing). -/
theorem occupiedAt_eq_payload (bs : List (Block Bool Unit)) (a : Nat) :
    occupiedAt bs a = (payloadAt boolOps bs a).1 := by
  rw [occupiedAt, payloadAt]
  cases coverBlock bs a with
  | none => rfl
  | some c =>
    show c.phys = rebase boolOps c.phys (a - c.virt)
    rw [rebase]
    split <;> rfl

/-- The pointwise semantics of the structural core on the allocator:
overwriting a range sets its occupancy and leaves all other addresses
untouched. -/
theorem occupied_setRange {bs : List (Block Bool Unit)}
    (hs : bs.Pairwise fun c d => c.virt < d.virt)
    (h0 : (bs.map Block.virt).head? = some 0) (v e : Nat) (pb : Bool)
    (hve : v < e) (addr : Nat) :
    occupiedAt (setRange boolOps bs v e pb ()) addr =
      if v ≤ addr ∧ addr < e then pb else occupiedAt bs addr := by
  rw [occupiedAt_eq_payload, payload_setRange hs h0 v e pb () hve addr]
  by_cases h : v ≤ addr ∧ addr < e
  · rw [if_pos h, if_pos h]
    show rebase boolOps pb (addr - v) = pb
    rw [rebase]
    split <;> rfl
  · rw [if_neg h, if_neg h, ← occupiedAt_eq_payload]

theorem occupiedAt_cons_ge {b b2 : Block Bool Unit} {rest : List (Block Bool Unit)}
    {a : Nat} (h : b2.virt ≤ a) :
    occupiedAt (b :: b2 :: rest) a = occupiedAt (b2 :: rest) a := by
  rw [occupiedAt, occupiedAt, coverBlock, if_neg (by omega)]

theorem cover_self_head {b2 : Block Bool Unit} {rest : List (Block Bool Unit)}
    (h : ∀ z ∈ rest.head?, b2.virt < z.virt) :
    coverBlock (b2 :: rest) b2.virt = some b2 := by
  cases rest with
  | nil => rfl
  | cons b3 rest2 =>
    rw [coverBlock, if_pos (h b3 rfl)]

/-- In a clean allocator block list, the successor of an unoccupied block is
occupied (adjacent holes merge). -/
theorem clean_next_occupied {b b2 : Block Bool Unit} {rest : List (Block Bool Unit)}
    (hc : (b :: b2 :: rest).Chain' fun c d => ¬ Mergeable boolOps c d)
    (hb : b.phys = false) : b2.phys = true := by
  have hnm := (List.chain'_cons.mp hc).1
  by_contra h
  have hb2 : b2.phys = false := by
    cases hb2 : b2.phys
    · rfl
    · exact absurd hb2 h
  exact hnm (Or.inl ⟨hb, hb2, rfl⟩)

/-- Soundness of the allocator search phase: a found address is at or above
the base, at or past every block start up to it, within the VA limit, and its
whole window is unoccupied. -/
theorem firstFit_some_spec :
    ∀ (bs : List (Block Bool Unit)) (S L sz r : Nat),
      (bs.Pairwise fun c d => c.virt < d.virt) →
      (bs.Chain' fun c d => ¬ Mergeable boolOps c d) →
      firstFit bs S L sz = some r →
      S ≤ r ∧ (∀ b ∈ bs.head?, b.virt ≤ r) ∧ r + sz ≤ L ∧
        ∀ i < sz, occupiedAt bs (r + i) = false
  | [], _, _, _, _, _, _, hf => by simp [firstFit] at hf
  | [b], S, L, sz, r, _, _, hf => by
    simp only [firstFit] at hf
    by_cases hb : b.phys = true
    · rw [if_pos hb] at hf
      exact absurd hf (by simp)
    · have hb2 : b.phys = false := by
        cases hb3 : b.phys
        · rfl
        · exact absurd hb3 hb
      rw [if_neg hb] at hf
      by_cases hfit : max b.virt S + sz ≤ L
      · rw [if_pos hfit] at hf
        have hr : r = max b.virt S := by
          have := hf
          simp at this
          omega
        subst hr
        refine ⟨Nat.le_max_right _ _, ?_, hfit, ?_⟩
        · intro z hz
          have h9 : b = z := by simpa using hz
          rw [← h9]
          exact Nat.le_max_left _ _
        · intro i _
          rw [occupiedAt]
          exact hb2
      · rw [if_neg hfit] at hf
        exact absurd hf (by simp)
  | b :: b2 :: rest, S, L, sz, r, hs, hc, hf => by
    have hs2 := (List.pairwise_cons.mp hs).2
    have hc2 := (List.chain'_cons.mp hc).2
    have hbb2 : b.virt < b2.virt := (List.pairwise_cons.mp hs).1 b2 (by simp)
    simp only [firstFit] at hf
    by_cases hb : b.phys = true
    · rw [if_pos hb] at hf
      obtain ⟨h1, h2, h3, h4⟩ := firstFit_some_spec (b2 :: rest) S L sz r hs2 hc2 hf
      have hb2r : b2.virt ≤ r := h2 b2 rfl
      refine ⟨h1, ?_, h3, ?_⟩
      · intro z hz
        have h9 : b = z := by simpa using hz
        rw [← h9]
        omega
      · intro i hi
        rw [occupiedAt_cons_ge (by omega)]
        exact h4 i hi
    · have hb2 : b.phys = false := by
        cases hb3 : b.phys
        · rfl
        · exact absurd hb3 hb
      rw [if_neg hb] at hf
      by_cases hfit : max b.virt S + sz ≤ b2.virt ∧ max b.virt S + sz ≤ L
      · rw [if_pos hfit] at hf
        have hr : r = max b.virt S := by
          have := hf
          simp at this
          omega
        subst hr
        refine ⟨Nat.le_max_right _ _, ?_, hfit.2, ?_⟩
        · intro z hz
          have h9 : b = z := by simpa using hz
          rw [← h9]
          exact Nat.le_max_left _ _
        · intro i hi
          rw [occupiedAt, coverBlock,
            if_pos (by have h1 := Nat.le_max_left b.virt S; omega)]
          exact hb2
      · rw [if_neg hfit] at hf
        obtain ⟨h1, h2, h3, h4⟩ := firstFit_some_spec (b2 :: rest) S L sz r hs2 hc2 hf
        have hb2r : b2.virt ≤ r := h2 b2 rfl
        refine ⟨h1, ?_, h3, ?_⟩
        · intro z hz
          have h9 : b = z := by simpa using hz
          rw [← h9]
          omega
        · intro i hi
          rw [occupiedAt_cons_ge (by omega)]
          exact h4 i hi

/-- Completeness of the allocator search phase: when the search fails, no
window at or above the base (and at or past the first block) fits. -/
theorem firstFit_none_nofit :
    ∀ (bs : List (Block Bool Unit)) (S L sz : Nat), bs ≠ [] →
      (bs.Pairwise fun c d => c.virt < d.virt) →
      (bs.Chain' fun c d => ¬ Mergeable boolOps c d) → 0 < sz →
      firstFit bs S L sz = none →
      ∀ q, S ≤ q → (∀ b ∈ bs.head?, b.virt ≤ q) →
        ¬ (q + sz ≤ L ∧ ∀ i < sz, occupiedAt bs (q + i) = false)
  | [], _, _, _, hne, _, _, _, _ => (hne rfl).elim
  | [b], S, L, sz, _, hsrt, _, hsz, hf => by
    intro q hSq hhead hfit
    simp only [firstFit] at hf
    by_cases hb : b.phys = true
    · have hocc : occupiedAt [b] (q + 0) = false := hfit.2 0 hsz
      simp [occupiedAt, coverBlock, hb] at hocc
    · rw [if_neg hb] at hf
      have hbq : b.virt ≤ q := hhead b rfl
      have hmax : max b.virt S ≤ q := by omega
      by_cases hok : max b.virt S + sz ≤ L
      · rw [if_pos hok] at hf
        simp at hf
      · exact hok (by omega)
  | b :: b2 :: rest, S, L, sz, _, hsrt, hcln, hsz, hf => by
    intro q hSq hhead hfit
    have hs2 := (List.pairwise_cons.mp hsrt).2
    have hc2 := (List.chain'_cons.mp hcln).2
    have hbb2 : b.virt < b2.virt := (List.pairwise_cons.mp hsrt).1 b2 (by simp)
    have hbq : b.virt ≤ q := hhead b rfl
    have hrec : firstFit (b2 :: rest) S L sz = none := by
      simp only [firstFit] at hf
      by_cases hb : b.phys = true
      · rwa [if_pos hb] at hf
      · rw [if_neg hb] at hf
        by_cases hok : max b.virt S + sz ≤ b2.virt ∧ max b.virt S + sz ≤ L
        · rw [if_pos hok] at hf
          simp at hf
        · rwa [if_neg hok] at hf
    by_cases hq2 : b2.virt ≤ q
    · refine firstFit_none_nofit (b2 :: rest) S L sz (by simp) hs2 hc2 hsz hrec q hSq
        (by intro z hz; have h9 : b2 = z := (by simpa using hz); rw [← h9]; omega) ⟨hfit.1, ?_⟩
      intro i hi
      rw [← occupiedAt_cons_ge (b := b) (by omega)]
      exact hfit.2 i hi
    · push_neg at hq2
      by_cases hb : b.phys = true
      · have hocc : occupiedAt (b :: b2 :: rest) (q + 0) = false := hfit.2 0 hsz
        rw [occupiedAt, coverBlock, if_pos (by omega)] at hocc
        simp [hb] at hocc
      · have hb2 : b.phys = false := by
          cases hb3 : b.phys
          · rfl
          · exact absurd hb3 hb
        -- the whole window must fit below b2, so the gap check would succeed
        have hwin : q + sz ≤ b2.virt := by
          by_contra hwin
          push_neg at hwin
          have hi : b2.virt - q < sz := by omega
          have := hfit.2 (b2.virt - q) hi
          have hqi : q + (b2.virt - q) = b2.virt := by omega
          rw [hqi, occupiedAt, coverBlock, if_neg (by omega),
            cover_self_head (by
              intro z hz
              cases rest with
              | nil => simp at hz
              | cons b3 rest2 =>
                have h9 : b3 = z := by simpa using hz
                have h8 := (List.pairwise_cons.mp hs2).1 b3 (by simp)
                rw [← h9]
                omega)] at this
          simp [clean_next_occupied hcln hb2] at this
        have hok : max b.virt S + sz ≤ b2.virt ∧ max b.virt S + sz ≤ L :=
          ⟨by omega, by omega⟩
        simp only [firstFit] at hf
        rw [if_neg hb, if_pos hok] at hf
        simp at hf

/-- Minimality of the allocator search phase: nothing at or above the base and
strictly below the found address fits. -/
theorem firstFit_some_min :
    ∀ (bs : List (Block Bool Unit)) (S L sz r : Nat),
      (bs.Pairwise fun c d => c.virt < d.virt) →
      (bs.Chain' fun c d => ¬ Mergeable boolOps c d) → 0 < sz →
      firstFit bs S L sz = some r →
      ∀ q, S ≤ q → (∀ b ∈ bs.head?, b.virt ≤ q) → q < r →
        ¬ (q + sz ≤ L ∧ ∀ i < sz, occupiedAt bs (q + i) = false)
  | [], _, _, _, _, _, _, _, hf => by simp [firstFit] at hf
  | [b], S, L, sz, r, hsrt, _, hsz, hf => by
    intro q hSq hhead hqr hfit
    simp only [firstFit] at hf
    by_cases hb : b.phys = true
    · rw [if_pos hb] at hf
      simp at hf
    · rw [if_neg hb] at hf
      have hbq : b.virt ≤ q := hhead b rfl
      by_cases hok : max b.virt S + sz ≤ L
      · rw [if_pos hok] at hf
        have : r = max b.virt S := by
          have h9 := hf
          simp at h9
          omega
        omega
      · rw [if_neg hok] at hf
        simp at hf
  | b :: b2 :: rest, S, L, sz, r, hsrt, hcln, hsz, hf => by
    intro q hSq hhead hqr hfit
    have hs2 := (List.pairwise_cons.mp hsrt).2
    have hc2 := (List.chain'_cons.mp hcln).2
    have hbb2 : b.virt < b2.virt := (List.pairwise_cons.mp hsrt).1 b2 (by simp)
    have hbq : b.virt ≤ q := hhead b rfl
    simp only [firstFit] at hf
    by_cases hb : b.phys = true
    · rw [if_pos hb] at hf
      by_cases hq2 : b2.virt ≤ q
      · refine firstFit_some_min (b2 :: rest) S L sz r hs2 hc2 hsz hf q hSq
          (by intro z hz; have h9 : b2 = z := (by simpa using hz); rw [← h9]; omega) hqr
          ⟨hfit.1, ?_⟩
        intro i hi
        rw [← occupiedAt_cons_ge (b := b) (by omega)]
        exact hfit.2 i hi
      · push_neg at hq2
        have hocc : occupiedAt (b :: b2 :: rest) (q + 0) = false := hfit.2 0 hsz
        rw [occupiedAt, coverBlock, if_pos (by omega)] at hocc
        simp [hb] at hocc
    · have hb2 : b.phys = false := by
        cases hb3 : b.phys
        · rfl
        · exact absurd hb3 hb
      rw [if_neg hb] at hf
      by_cases hok : max b.virt S + sz ≤ b2.virt ∧ max b.virt S + sz ≤ L
      · rw [if_pos hok] at hf
        have : r = max b.virt S := by
          have h9 := hf
          simp at h9
          omega
        omega
      · rw [if_neg hok] at hf
        by_cases hq2 : b2.virt ≤ q
        · refine firstFit_some_min (b2 :: rest) S L sz r hs2 hc2 hsz hf q hSq
            (by intro z hz; have h9 : b2 = z := (by simpa using hz); rw [← h9]; omega) hqr
            ⟨hfit.1, ?_⟩
          intro i hi
          rw [← occupiedAt_cons_ge (b := b) (by omega)]
          exact hfit.2 i hi
        · push_neg at hq2
          have hwin : q + sz ≤ b2.virt := by
            by_contra hwin
            push_neg at hwin
            have hi : b2.virt - q < sz := by omega
            have := hfit.2 (b2.virt - q) hi
            have hqi : q + (b2.virt - q) = b2.virt := by omega
            rw [hqi, occupiedAt, coverBlock, if_neg (by omega),
              cover_self_head (by
                intro z hz
                cases rest with
                | nil => simp at hz
                | cons b3 rest2 =>
                  have h9 : b3 = z := by simpa using hz
                  have h8 := (List.pairwise_cons.mp hs2).1 b3 (by simp)
                  rw [← h9]
                  omega)] at this
            simp [clean_next_occupied hcln hb2] at this
          exact hok ⟨by omega, by omega⟩

/-- The linear phase of the allocator: as long as the advancing cursor plus
`size` stays within the VA limit, `n` successive `Allocate size` calls return
the cursor positions in order. -/
theorem allocRun_linear :
    ∀ (n : Nat) (a : FlatAllocator) (size : Nat),
      a.currentLinearAllocEnd + n * size ≤ a.vaLimit →
      (allocRun a size n).2 = (List.range n).map fun i =>
        some (a.currentLinearAllocEnd + i * size)
  | 0, _, _, _ => rfl
  | n + 1, a, size, h => by
    have hsize : size ≤ (n + 1) * size := Nat.le_mul_of_pos_left size n.succ_pos
    have hlin : a.currentLinearAllocEnd + size ≤ a.vaLimit := by omega
    rw [allocRun]
    simp only [Allocate, if_pos hlin]
    have hrec : (a.currentLinearAllocEnd + size) + n * size ≤ a.vaLimit := by
      have : (n + 1) * size = n * size + size := Nat.succ_mul n size
      omega
    rw [allocRun_linear n _ size hrec]
    rw [List.range_succ_eq_map, List.map_cons, List.map_map]
    congr 1
    · simp
    · refine List.map_congr_left ?_
      intro i _
      show some (a.currentLinearAllocEnd + size + i * size) =
        some (a.currentLinearAllocEnd + (i + 1) * size)
      congr 1
      rw [Nat.succ_mul]
      omega

/-- The head block of an invariant block vector starts at 0, hence lies at or
below any address. -/
theorem head_le_of_invariant {bs : List (Block Bool Unit)}
    (hh : (bs.map Block.virt).head? = some 0) (q : Nat) :
    ∀ b ∈ bs.head?, b.virt ≤ q := by
  intro b hb
  cases bs with
  | nil => simp at hb
  | cons b0 t0 =>
    have h1 : b0.virt = 0 := by simpa using hh
    have h2 : b0 = b := by simpa using hb
    rw [← h2, h1]
    omega

/-- The search-phase allocation after freeing `[virt, virt + size)`: when the
linear cursor is exhausted, the allocator had no fitting gap at or above the
base, and the address just below the freed range (if inside the arena) is
still allocated, `Allocate` returns exactly the freed address. -/
theorem free_then_allocate (a : FlatAllocator) (virt size : Nat)
    (hInv : InvariantB boolOps a.blocks) (hsz : 0 < size)
    (hlin : a.vaLimit < a.currentLinearAllocEnd + size)
    (hva : a.vaStart ≤ virt) (hend : virt + size ≤ a.vaLimit)
    (hnofit : ∀ q ≤ a.vaLimit, a.vaStart ≤ q →
      ¬ fitsAt a.blocks a.vaLimit size q)
    (hleft : a.vaStart = virt ∨ occupiedAt a.blocks (virt - 1) = true) :
    (Allocate (Free a virt size) size).2 = some virt := by
  obtain ⟨hsor0, hcln0, hhead0⟩ := hInv
  have hsor : a.blocks.Pairwise fun c d => c.virt < d.virt := hsor0
  have hcln : a.blocks.Chain' fun c d => ¬ Mergeable boolOps c d := hcln0
  have hInv2 : InvariantB boolOps (Free a virt size).blocks :=
    setRange_invariant virt (virt + size) false () ⟨hsor0, hcln0, hhead0⟩
  obtain ⟨hsor2, hcln2, hhead2⟩ := hInv2
  have hsorF : (Free a virt size).blocks.Pairwise fun c d => c.virt < d.virt :=
    hsor2
  have hclnF : (Free a virt size).blocks.Chain' fun c d =>
    ¬ Mergeable boolOps c d := hcln2
  have hocc : ∀ addr, occupiedAt (Free a virt size).blocks addr =
      if virt ≤ addr ∧ addr < virt + size then false
      else occupiedAt a.blocks addr := by
    intro addr
    exact occupied_setRange hsor hhead0 virt (virt + size) false (by omega) addr
  have hfitv : fitsAt (Free a virt size).blocks a.vaLimit size virt := by
    refine ⟨hend, ?_⟩
    intro i hi
    rw [hocc]
    rw [if_pos (by omega)]
  have hne : (Free a virt size).blocks ≠ [] := by
    cases h : (Free a virt size).blocks
    · rw [h] at hhead2
      simp at hhead2
    · simp
  rw [Allocate]
  rw [if_neg (by show ¬ (a.currentLinearAllocEnd + size ≤ a.vaLimit); omega)]
  rw [show (Free a virt size).vaStart = a.vaStart from rfl,
    show (Free a virt size).vaLimit = a.vaLimit from rfl]
  cases hff : firstFit (Free a virt size).blocks a.vaStart a.vaLimit size with
  | none =>
    exact absurd hfitv
      (firstFit_none_nofit (Free a virt size).blocks a.vaStart a.vaLimit size
        hne hsorF hclnF hsz hff virt hva (head_le_of_invariant hhead2 virt))
  | some r =>
    obtain ⟨hSr, hheadr, hrL, hwin⟩ := firstFit_some_spec
      (Free a virt size).blocks a.vaStart a.vaLimit size r hsorF hclnF hff
    have hrv : r ≤ virt := by
      by_contra hrv
      push_neg at hrv
      exact firstFit_some_min (Free a virt size).blocks a.vaStart a.vaLimit
        size r hsorF hclnF hsz hff virt hva (head_le_of_invariant hhead2 virt)
        hrv hfitv
    have hvr : virt ≤ r := by
      by_contra hvr
      push_neg at hvr
      by_cases hsep : r + size ≤ virt
      · -- the found window does not touch the freed range: it was already free
        refine hnofit r (by omega) hSr ⟨hrL, ?_⟩
        intro i hi
        have := hwin i hi
        rw [hocc] at this
        rw [if_neg (by omega)] at this
        exact this
      · -- the window straddles the address just below the freed range
        push_neg at hsep
        rcases hleft with hleft | hleft
        · omega
        · have hi : virt - 1 - r < size := by omega
          have := hwin (virt - 1 - r) hi
          rw [hocc] at this
          have hq : r + (virt - 1 - r) = virt - 1 := by omega
          rw [hq, if_neg (by omega), hleft] at this
          simp at this
    have hfin : r = virt := by omega
    show some r = some virt
    rw [hfin]

/-! ## Claim theorems -/

/-- C1: after any sequence of public `Map`/`Unmap` calls on a fresh
`FlatMemoryManager`, and after any sequence of public
`Map`/`Unmap`/`Allocate`/`AllocateFixed`/`Free` calls on a fresh
`FlatAllocator`, the stored block sequence is strictly ascending by virtual
start address and no two adjacent stored blocks are mergeable (same
mapped/unmapped status, compatible physical contiguity, identical extra
info). -/
theorem C1_invariant_holds (vaLimitM : Nat) (memCalls : List MemOp)
    (vaStart vaLimitA : Nat) (allocCalls : List AllocOp) :
    (Ascending (applyMemOps memCalls (FlatMemoryManager.init vaLimitM)).blocks ∧
      NoMerge memOps (applyMemOps memCalls (FlatMemoryManager.init vaLimitM)).blocks) ∧
    (Ascending (applyAllocOps allocCalls (FlatAllocator.init vaStart vaLimitA)).blocks ∧
      NoMerge boolOps (applyAllocOps allocCalls (FlatAllocator.init vaStart vaLimitA)).blocks) := by
  have h1 := applyMemOps_invariant (initMap_invariant memOps vaLimitM) memCalls
  have h2 : InvariantB boolOps (FlatAllocator.init vaStart vaLimitA).blocks :=
    ⟨List.pairwise_singleton _ _, List.chain'_singleton _, rfl⟩
  have h3 := applyAllocOps_invariant h2 allocCalls
  exact ⟨⟨h1.1, h1.2.1⟩, ⟨h3.1, h3.2.1⟩⟩

/-- C2: a Map request whose end would lie beyond the instance's soft VA limit,
or beyond the maximum representable VA for the configured address width (the
soft limit never exceeds `VaMaximum`), fails fast with an out-of-range result
and leaves the block sequence (indeed the whole state) exactly unchanged. -/
theorem C2_map_out_of_range [DecidableEq PA] [DecidableEq Extra] (ops : PaOps PA)
    (st : FlatAddressSpaceMap PA Extra) (bits virt size : Nat) (phys : PA) (x : Extra)
    (hlim : st.vaLimit ≤ VaMaximum bits)
    (h : st.vaLimit < virt + size ∨ VaMaximum bits < virt + size) :
    Map ops st virt phys size x = (st, false) := by
  have hover : st.vaLimit < virt + size := by
    rcases h with h | h
    · exact h
    · exact Nat.lt_of_le_of_lt hlim h
  simp [Map, hover]

/-- Witness for C2 at a concrete instance: address width 5 (so
`VaMaximum = 31`), soft limit 10, and a request ending at 40. -/
theorem C2_map_out_of_range_witness :
    (FlatMemoryManager.init 10).vaLimit ≤ VaMaximum 5 ∧
      Map memOps (FlatMemoryManager.init 10) 20 7 20 noSparse =
        (FlatMemoryManager.init 10, false) :=
  ⟨by decide,
    C2_map_out_of_range memOps (FlatMemoryManager.init 10) 5 20 20 7 noSparse
      (by decide) (Or.inl (by decide))⟩

/-- C3: in the memory-manager specialization (physical-contiguity merge
enabled), mapping `[0, 0x1000) ↦ 0x1000` then `[0x1000, 0x2000) ↦ 0x2000` with
identical extra info yields a single merged mapped block spanning `[0, 0x2000)`
with physical base `0x1000` (followed only by the unmapped remainder starting
at `0x2000`), not two separate blocks. -/
theorem C3_merge_on_map :
    ((Map memOps (Map memOps (FlatMemoryManager.init 0x10000)
          0 0x1000 0x1000 noSparse).1
        0x1000 0x2000 0x1000 noSparse).1).blocks =
      [⟨0, 0x1000, noSparse⟩, ⟨0x2000, 0, noSparse⟩] := by
  decide

/-- C5: calling `Unmap` twice in a row on the same range leaves the map in
exactly the same state as calling it once; in particular unmapping a region
that is not currently mapped is legal and structurally idempotent.  (The block
vector of a live instance is never empty: the sentinel first slot always
exists.) -/
theorem C5_unmap_idempotent (ops : PaOps PA) [DecidableEq PA] [DecidableEq Extra]
    [Inhabited Extra] (st : FlatAddressSpaceMap PA Extra) (virt size : Nat)
    (h : st.blocks ≠ []) :
    Unmap ops (Unmap ops st virt size) virt size = Unmap ops st virt size := by
  have h2 := @setRange_idem PA Extra ops _ _ st.blocks virt (virt + size)
    ops.unmapped (default : Extra) h
  simp only [Unmap]
  rw [h2]

/-- Witness for C5 on a fresh memory manager and the range `[5, 12)`. -/
theorem C5_unmap_idempotent_witness :
    Unmap memOps (Unmap memOps (FlatMemoryManager.init 0x100) 5 7) 5 7 =
      Unmap memOps (FlatMemoryManager.init 0x100) 5 7 :=
  C5_unmap_idempotent memOps (FlatMemoryManager.init 0x100) 5 7 (by decide)

/-- C4: mapping `[0, 0x3000) ↦ P` (for any non-null `P`) and then unmapping the
middle page `[0x1000, 0x2000)` splits the block into two correctly rebased
mapped fragments — `[0, 0x1000) ↦ P` and `[0x2000, 0x3000) ↦ P + 0x2000` —
with `[0x1000, 0x2000)` unmapped (and the tail past `0x3000` unmapped as
before). -/
theorem C4_split_on_unmap (P : Nat) (hP : P ≠ 0) :
    (Unmap memOps (Map memOps (FlatMemoryManager.init 0x10000)
          0 P 0x3000 noSparse).1
        0x1000 0x1000).blocks =
      [⟨0, P, noSparse⟩, ⟨0x1000, 0, noSparse⟩, ⟨0x2000, P + 0x2000, noSparse⟩,
        ⟨0x3000, 0, noSparse⟩] := by
  simp only [Map, Unmap, FlatMemoryManager.init, initMap]
  norm_num [hP, setRange, leftBlocks, tailBlocks, rightBlocks, glue, coverBlock,
    rebase, Mergeable, memOps, noSparse, default_extraInfo_eq]

/-- Witness for C4 at the concrete physical base `P = 0x77000`. -/
theorem C4_split_on_unmap_witness :
    (Unmap memOps (Map memOps (FlatMemoryManager.init 0x10000)
          0 0x77000 0x3000 noSparse).1
        0x1000 0x1000).blocks =
      [⟨0, 0x77000, noSparse⟩, ⟨0x1000, 0, noSparse⟩,
        ⟨0x2000, 0x77000 + 0x2000, noSparse⟩, ⟨0x3000, 0, noSparse⟩] :=
  C4_split_on_unmap 0x77000 (by decide)

/-- C6: for any virtual subrange of a single prior non-sparse mapping on a
fresh memory manager, `TranslateRange` returns spans (here: exactly one) whose
reassembled physical addresses are exactly `phys0 + (virt - virt0)` onward,
increasing one-to-one with the virtual addresses, for the full queried size. -/
theorem C6_translate_round_trip (L virt0 size0 phys0 virt size : Nat)
    (hph : phys0 ≠ 0) (hsz0 : 0 < size0) (hlim : virt0 + size0 ≤ L)
    (hv : virt0 ≤ virt) (he : virt + size ≤ virt0 + size0) :
    physList (TranslateRange
        (Map memOps (FlatMemoryManager.init L) virt0 phys0 size0 noSparse).1
        virt size) =
      (List.range size).map fun i => some (phys0 + (virt - virt0) + i) := by
  rw [translate_sub L virt0 size0 phys0 noSparse hph hsz0 hlim virt size hv he]
  by_cases hsz : size = 0
  · subst hsz
    simp [physList]
  · rw [if_neg hsz]
    simp [physList, spanBytes, mkSpan, noSparse]

/-- Witness for C6: a fresh manager with limit `0x100`, the mapping
`[0x10, 0x30) ↦ 0x40`, and the query `[0x18, 0x20)`. -/
theorem C6_translate_round_trip_witness :
    physList (TranslateRange
        (Map memOps (FlatMemoryManager.init 0x100) 0x10 0x40 0x20 noSparse).1
        0x18 8) =
      (List.range 8).map fun i => some (0x40 + (0x18 - 0x10) + i) :=
  C6_translate_round_trip 0x100 0x10 0x20 0x40 0x18 8 (by decide) (by decide)
    (by decide) (by decide) (by decide)

/-- C7: reading any subrange of a sparse-mapped region returns all-zero bytes
for every state of the physical backing memory — in particular regardless of
any prior `Write` calls — and a `Write` targeting the sparse-mapped region is
discarded, leaving the backing memory untouched. -/
theorem C7_sparse_read (L virt0 size0 virt size : Nat) (bytes : List Nat)
    (mem : Nat → Nat) (hsz0 : 0 < size0) (hlim : virt0 + size0 ≤ L)
    (hv : virt0 ≤ virt) (he : virt + size ≤ virt0 + size0)
    (hw : virt + bytes.length ≤ virt0 + size0) :
    Read mem (Map memOps (FlatMemoryManager.init L) virt0
        SparsePlaceholderAddress size0 isSparse).1 virt size =
      List.replicate size 0 ∧
    Write mem (Map memOps (FlatMemoryManager.init L) virt0
        SparsePlaceholderAddress size0 isSparse).1 virt bytes = mem := by
  have hph : SparsePlaceholderAddress ≠ 0 := by decide
  constructor
  · rw [Read, translate_sub L virt0 size0 SparsePlaceholderAddress isSparse hph
      hsz0 hlim virt size hv he]
    by_cases hsz : size = 0
    · subst hsz
      simp
    · rw [if_neg hsz]
      simp [readSpan, mkSpan, isSparse]
  · rw [Write, translate_sub L virt0 size0 SparsePlaceholderAddress isSparse hph
      hsz0 hlim virt bytes.length hv hw]
    by_cases hb : bytes.length = 0
    · rw [if_pos hb]
      rfl
    · rw [if_neg hb]
      simp [writeSpans, writeSpan, mkSpan, isSparse]

/-- Witness for C7: sparse mapping `[0x10, 0x30)` on a fresh manager, reading
`[0x18, 0x20)` out of a backing memory that is everywhere 0xAB after writing
four 0x7 bytes into the sparse region. -/
theorem C7_sparse_read_witness :
    Read (fun _ => 0xAB) (Map memOps (FlatMemoryManager.init 0x100) 0x10
        SparsePlaceholderAddress 0x20 isSparse).1 0x18 8 =
      List.replicate 8 0 ∧
    Write (fun _ => 0xAB) (Map memOps (FlatMemoryManager.init 0x100) 0x10
        SparsePlaceholderAddress 0x20 isSparse).1 0x18 [7, 7, 7, 7] =
      (fun _ => 0xAB) :=
  C7_sparse_read 0x100 0x10 0x20 0x18 8 [7, 7, 7, 7] (fun _ => 0xAB)
    (by decide) (by decide) (by decide) (by decide) (by decide)

/-- C10: the public `Unmap` of an instance constructed with an unmap callback
invokes the callback exactly once, with exactly the requested `(virt, size)`,
synchronously within the call; the invocation happens after the structural
mutation of the block sequence (which equals the `Unmap` result), and at the
moment of invocation the instance's block lock is no longer held (acquisitions
and releases balance before the callback event). -/
theorem C10_unmap_callback_protocol [DecidableEq PA] [DecidableEq Extra]
    [Inhabited Extra] (ops : PaOps PA) (st : FlatAddressSpaceMap PA Extra)
    (virt size : Nat) :
    (UnmapTraced ops st virt size).1 = Unmap ops st virt size ∧
      ((UnmapTraced ops st virt size).2.filter fun ev =>
          match ev with | UnmapEvent.callback _ _ => true | _ => false) =
        [UnmapEvent.callback virt size] ∧
      ∃ i j, i < j ∧
        (UnmapTraced ops st virt size).2[i]? = some UnmapEvent.mutate ∧
        (UnmapTraced ops st virt size).2[j]? = some (UnmapEvent.callback virt size) ∧
        ((UnmapTraced ops st virt size).2.take j).count UnmapEvent.acquire =
          ((UnmapTraced ops st virt size).2.take j).count UnmapEvent.release := by
  refine ⟨rfl, rfl, 1, 3, by decide, rfl, rfl, rfl⟩

/-- C9: when `Allocate size` can succeed in neither phase — the linear cursor
plus `size` overshoots the VA limit, and no address `q` with
`vaStart ≤ q ≤ vaLimit` gives a window of `size` unoccupied addresses inside
the limit — the call surfaces the explicit no-space result `none` and returns
the allocator state exactly as it was (blocks, cursor, bounds all unchanged),
for every allocator satisfying the structural invariant. -/
theorem C9_allocate_exhaustion (a : FlatAllocator) (size : Nat)
    (hInv : InvariantB boolOps a.blocks) (hsz : 0 < size)
    (hlin : a.vaLimit < a.currentLinearAllocEnd + size)
    (hnofit : ∀ q ≤ a.vaLimit, a.vaStart ≤ q →
      ¬ fitsAt a.blocks a.vaLimit size q) :
    Allocate a size = (a, none) := by
  obtain ⟨hsor0, hcln0, hhead0⟩ := hInv
  have hsor : a.blocks.Pairwise fun c d => c.virt < d.virt := hsor0
  have hcln : a.blocks.Chain' fun c d => ¬ Mergeable boolOps c d := hcln0
  rw [Allocate, if_neg (by show ¬ (a.currentLinearAllocEnd + size ≤ a.vaLimit); omega)]
  cases hff : firstFit a.blocks a.vaStart a.vaLimit size with
  | none => rfl
  | some r =>
    obtain ⟨h1, h2, h3, h4⟩ := firstFit_some_spec a.blocks a.vaStart a.vaLimit
      size r hsor hcln hff
    exact absurd (⟨h3, h4⟩ : fitsAt a.blocks a.vaLimit size r)
      (hnofit r (by omega) h1)

/-- Witness for C9 at a concrete exhausted allocator: base 0, limit 1,
requesting 2 bytes fails with `none` and leaves the state untouched. -/
theorem C9_allocate_exhaustion_witness :
    Allocate (FlatAllocator.init 0 1) 2 = (FlatAllocator.init 0 1, none) :=
  C9_allocate_exhaustion (FlatAllocator.init 0 1) 2 (by decide) (by decide)
    (by decide) (by decide)

/-- C8 counterexample: the original claim reads "once the linear cursor has
reached the limit, `Free(virt, size)` of an earlier allocation followed by
`Allocate(size)` returns that freed address `virt`".  Fill a 6-byte arena with
three 2-byte linear allocations (results 0, 2, 4; cursor = limit = 6), free
the block at 0, then free the block at 2 and allocate: first-fit over the
merged gap `[0, 4)` returns `some 0`, not the just-freed `some 2`. -/
theorem C8_counterexample :
    (allocRun (FlatAllocator.init 0 6) 2 3).2 = [some 0, some 2, some 4] ∧
    (allocRun (FlatAllocator.init 0 6) 2 3).1.currentLinearAllocEnd = 6 ∧
    (Allocate
        (Free (Free (allocRun (FlatAllocator.init 0 6) 2 3).1 0 2) 2 2) 2).2 =
      some 0 ∧
    some 0 ≠ some 2 := by
  decide

/-- C8 (amended): (a) repeated `Allocate size` calls return consecutive
addresses `vaStart, vaStart + size, …` for as long as the advancing linear
cursor plus `size` stays within the VA limit; (b) once the linear cursor is
exhausted, if the allocator had no fitting gap at or above the base and the
address just below the freed range is still allocated (or the range starts at
the base) — i.e. freeing does not merge the range into an earlier gap — then
`Free virt size` followed by `Allocate size` returns exactly `some virt` via
the first-fit search phase; (c) `Free` never resets or rewinds the linear
cursor. -/
theorem C8_allocator_phase :
    (∀ (vaStart vaLimit size n : Nat),
        vaStart + n * size ≤ vaLimit →
        (allocRun (FlatAllocator.init vaStart vaLimit) size n).2 =
          (List.range n).map fun i => some (vaStart + i * size)) ∧
    (∀ (a : FlatAllocator) (virt size : Nat),
        InvariantB boolOps a.blocks → 0 < size →
        a.vaLimit < a.currentLinearAllocEnd + size →
        a.vaStart ≤ virt → virt + size ≤ a.vaLimit →
        (∀ q ≤ a.vaLimit, a.vaStart ≤ q →
          ¬ fitsAt a.blocks a.vaLimit size q) →
        (a.vaStart = virt ∨ occupiedAt a.blocks (virt - 1) = true) →
        (Allocate (Free a virt size) size).2 = some virt) ∧
    (∀ (a : FlatAllocator) (virt size : Nat),
        (Free a virt size).currentLinearAllocEnd = a.currentLinearAllocEnd) := by
  refine ⟨?_, ?_, ?_⟩
  · intro vaStart vaLimit size n h
    have h2 := allocRun_linear n (FlatAllocator.init vaStart vaLimit) size
      (by simpa [FlatAllocator.init] using h)
    simpa [FlatAllocator.init] using h2
  · intro a virt size hInv hsz hlin hva hend hnofit hleft
    exact free_then_allocate a virt size hInv hsz hlin hva hend hnofit hleft
  · intro a virt size
    rfl

/-- Witness for C8 at the concrete 6-byte arena: the three linear allocations
land at 0, 2, 4; with the cursor exhausted, freeing `[2, 4)` (whose left
neighbour at address 1 is still allocated) and allocating 2 bytes returns
exactly `some 2`; the `Free` left the cursor at 6. -/
theorem C8_allocator_phase_witness :
    (allocRun (FlatAllocator.init 0 6) 2 3).2 = [some 0, some 2, some 4] ∧
    (Allocate (Free (allocRun (FlatAllocator.init 0 6) 2 3).1 2 2) 2).2 =
      some 2 ∧
    (Free (allocRun (FlatAllocator.init 0 6) 2 3).1 2 2).currentLinearAllocEnd =
      (allocRun (FlatAllocator.init 0 6) 2 3).1.currentLinearAllocEnd := by
  obtain ⟨h1, h2, h3⟩ := C8_allocator_phase
  refine ⟨?_, ?_, h3 (allocRun (FlatAllocator.init 0 6) 2 3).1 2 2⟩
  · rw [h1 0 6 2 3 (by decide)]
    decide
  · exact h2 (allocRun (FlatAllocator.init 0 6) 2 3).1 2 2 (by decide)
      (by decide) (by decide) (by decide) (by decide) (by decide)
      (Or.inr (by decide))

end Skyline
